import Mathlib

/-! Blind-signature coin and fair-signing drivers.

A shallow embedding of `src/driver.js` (`parseCoin`, `acceptCoin`,
`determineCheater`), of the requester callback of `src/driver1-lab2.js` and
of the `CurrencyConverter` of `src/Lab1.js`.

Conventions of the embedding.

* A JavaScript string is a list of characters (`JSString`).  The string
  operations the drivers use (`split` on a one-character separator,
  `startsWith`, `slice(n)` after a successful `startsWith`, `!==`, `+`) act
  on well-formed strings exactly as the list operations used here.
* A Node `Buffer` is an object: it has an identity (`ref`) and a byte
  content (`bytes`).  `!==` between two buffers compares identities.
* `undefined` is `none`; reading an array slot is `xs[i]?`.
* What the drivers import and this repository does not define
  (`COIN_RIS_LENGTH`, `IDENT_STR`, `BANK_STR`, `utils.hash`,
  `blindSignatures.verify`, `Buffer.prototype.toString`) is collected in
  `Externals` and stays a parameter of every definition and theorem.
* `Math.random() < 0.5` is the argument `isLeft`.
* The numbers of `Lab1.js` are rationals (exact arithmetic); a table of rates
  is the list of its own properties in insertion order.
-/

namespace Driver

/-- A JavaScript string. -/
abbrev JSString := List Char

/-- A Node `Buffer`: object identity and byte content. -/
structure Buffer where
  ref : Nat
  bytes : List Nat
deriving DecidableEq, Repr

/-- The ways the functions of `driver.js` can throw. -/
inductive JSError where
  /-- `Error("Invalid signature. Coin rejected.")`, thrown by `acceptCoin`. -/
  | invalidSignature
  /-- `Error("Invalid identity string: ...")`, thrown by `parseCoin`. -/
  | invalidIdentity (received : Option JSString)
  /-- `Error("Hash mismatch at index i")`, thrown by `acceptCoin`. -/
  | hashMismatch (index : Nat)
  /-- A `TypeError` raised by reading a property of `undefined`. -/
  | typeError
deriving DecidableEq, Repr

/-- The imports of `driver.js` that the repository does not define. -/
structure Externals where
  /-- `COIN_RIS_LENGTH` of `coin.js`. -/
  COIN_RIS_LENGTH : Nat
  /-- `IDENT_STR` of `coin.js`. -/
  IDENT_STR : JSString
  /-- `BANK_STR` of `coin.js`. -/
  BANK_STR : JSString
  /-- `utils.hash`, on the bytes of a share. -/
  hash : List Nat → JSString
  /-- `blindSignatures.verify({unblinded, message, key: {n, e}})`. -/
  verify : Nat → JSString → JSString → JSString → Bool
  /-- `Buffer.prototype.toString()`. -/
  bufToString : List Nat → JSString

/-- What `acceptCoin` reads of a `Coin` object (class of `coin.js`). -/
structure Coin where
  signature : Nat
  /-- The field `coin.hash`, `none` when it is undefined. -/
  hash : Option JSString
  n : JSString
  e : JSString
  /-- The result of `coin.toString()`. -/
  coinString : JSString
  /-- The method `coin.getRis(isLeft, i)`. -/
  getRis : Bool → Nat → Buffer

/-- `parseCoin(s)`: the five leading `-`-separated fields are destructured,
the first is compared with `BANK_STR`, the fourth and fifth are split on
commas.  Splitting an undefined field is a `TypeError`. -/
def parseCoin (BANK_STR : JSString) (s : JSString) :
    Except JSError (List JSString × List JSString) :=
  let fields := s.splitOn '-'
  let cnst := fields[0]?
  let leftHashes := fields[3]?
  let rightHashes := fields[4]?
  if cnst ≠ some BANK_STR then
    .error (.invalidIdentity cnst)
  else
    match leftHashes with
    | none => .error .typeError
    | some leftHashes =>
      let lh := leftHashes.splitOn ','
      match rightHashes with
      | none => .error .typeError
      | some rightHashes =>
        let rh := rightHashes.splitOn ','
        .ok (lh, rh)

/-- The message `acceptCoin` verifies: `coin.hash || coin.toString()`.
A string is truthy when it is not empty. -/
def verifiedMessage (coin : Coin) : JSString :=
  match coin.hash with
  | some h => if h ≠ [] then h else coin.coinString
  | none => coin.coinString

/-- What a run of `acceptCoin` leaves behind: the calls made to
`coin.getRis`, in order, and the value returned or the error thrown. -/
structure AcceptRun where
  getRisCalls : List (Bool × Nat)
  result : Except JSError (List Buffer)

/-- The `for` loop of `acceptCoin`, entered at index `i` with `fuel`
iterations left, `ris` collected and `calls` made so far. -/
def acceptLoop (ext : Externals) (coin : Coin) (isLeft : Bool)
    (selectedHashes : List JSString) :
    Nat → Nat → List Buffer → List (Bool × Nat) → AcceptRun
  | 0, _, ris, calls => ⟨calls, .ok ris⟩
  | fuel + 1, i, ris, calls =>
    let ident := coin.getRis isLeft i
    let calls := calls ++ [(isLeft, i)]
    let hash := ext.hash ident.bytes
    if some hash ≠ selectedHashes[i]? then
      ⟨calls, .error (.hashMismatch i)⟩
    else
      acceptLoop ext coin isLeft selectedHashes fuel (i + 1) (ris ++ [ident]) calls

/-- `acceptCoin(coin)`, with the outcome of `Math.random() < 0.5` given as
`isLeft`. -/
def acceptCoin (ext : Externals) (coin : Coin) (isLeft : Bool) : AcceptRun :=
  let valid := ext.verify coin.signature (verifiedMessage coin) coin.n coin.e
  if !valid then
    ⟨[], .error .invalidSignature⟩
  else
    match parseCoin ext.BANK_STR coin.coinString with
    | .error err => ⟨[], .error err⟩
    | .ok (leftHashes, rightHashes) =>
      let selectedHashes := if isLeft then leftHashes else rightHashes
      acceptLoop ext coin isLeft selectedHashes ext.COIN_RIS_LENGTH 0 [] []

/-- The inner loop of `determineCheater`: a buffer of `a.length` bytes whose
`j`-th byte is `a[j] ^ b[j]`; a missing `b[j]` is `undefined`, which `^`
reads as `0`, and a store into a buffer keeps the low eight bits. -/
def xorBuffer (a b : List Nat) : List Nat :=
  (List.range a.length).map fun j => (a.getD j 0 ^^^ b.getD j 0) % 256

/-- The two messages `determineCheater` can print after
`Double spending detected for coin <guid>`. -/
inductive Verdict where
  /-- `The cheater is the coin owner: <identity>`. -/
  | ownerCheated (identity : JSString)
  /-- `The cheater is the merchant.` -/
  | merchantCheated
deriving DecidableEq, Repr

/-- The test made on a pair of differing shares: XOR them, read the result
as a string, and if it starts with `IDENT_STR` cut that prefix off. -/
def identityFrom (ext : Externals) (a b : List Nat) : Option JSString :=
  let xorResult := ext.bufToString (xorBuffer a b)
  if ext.IDENT_STR.isPrefixOf xorResult then
    some (xorResult.drop ext.IDENT_STR.length)
  else
    none

/-- The outer loop of `determineCheater`, entered at index `i` with `fuel`
iterations left.  `ris1[i].length` on an undefined `ris1[i]` and
`ris2[i][j]` on an undefined `ris2[i]` are `TypeError`s. -/
def determineCheaterLoop (ext : Externals) (ris1 ris2 : List Buffer) :
    Nat → Nat → Except JSError Verdict
  | 0, _ => .ok .merchantCheated
  | fuel + 1, i =>
    match ris1[i]?, ris2[i]? with
    | none, none => determineCheaterLoop ext ris1 ris2 fuel (i + 1)
    | none, some _ => .error .typeError
    | some a, none =>
      if a.bytes.length ≠ 0 then .error .typeError
      else
        match identityFrom ext a.bytes [] with
        | some identity => .ok (.ownerCheated identity)
        | none => determineCheaterLoop ext ris1 ris2 fuel (i + 1)
    | some a, some b =>
      if a.ref ≠ b.ref then
        match identityFrom ext a.bytes b.bytes with
        | some identity => .ok (.ownerCheated identity)
        | none => determineCheaterLoop ext ris1 ris2 fuel (i + 1)
      else
        determineCheaterLoop ext ris1 ris2 fuel (i + 1)

/-- `determineCheater(guid, ris1, ris2)`; the value is what it prints. -/
def determineCheater (ext : Externals) (_guid : JSString) (ris1 ris2 : List Buffer) :
    Except JSError Verdict :=
  determineCheaterLoop ext ris1 ris2 ext.COIN_RIS_LENGTH 0

deriving instance DecidableEq for Except

/-- Index `i` convicts the owner: both shares are there, they are different
buffers, and their XOR read as a string starts with `IDENT_STR`. -/
def markedAt (ext : Externals) (ris1 ris2 : List Buffer) (i : Nat) : Bool :=
  match ris1[i]?, ris2[i]? with
  | some a, some b =>
    a.ref != b.ref && ext.IDENT_STR.isPrefixOf (ext.bufToString (xorBuffer a.bytes b.bytes))
  | _, _ => false

/-- The XOR of the shares at index `i`, read as a string, without its first
`IDENT_STR.length` characters. -/
def identityAt (ext : Externals) (ris1 ris2 : List Buffer) (i : Nat) : JSString :=
  match ris1[i]?, ris2[i]? with
  | some a, some b => (ext.bufToString (xorBuffer a.bytes b.bytes)).drop ext.IDENT_STR.length
  | _, _ => []

/-- Invariant I2 of a coin: at every index the left and the right share have
the same length and their XOR, read as a string, is `IDENT_STR` followed by
the owner's identity. -/
def SharesEncodeIdentity (ext : Externals) (coin : Coin) (identity : JSString) : Prop :=
  ∀ i < ext.COIN_RIS_LENGTH,
    (coin.getRis true i).bytes.length = (coin.getRis false i).bytes.length ∧
    ext.bufToString (xorBuffer (coin.getRis true i).bytes (coin.getRis false i).bytes) =
      ext.IDENT_STR ++ identity

instance (ext : Externals) (coin : Coin) (identity : JSString) :
    Decidable (SharesEncodeIdentity ext coin identity) := by
  unfold SharesEncodeIdentity
  infer_instance

/-- A sample of the imported constants and primitives. -/
def sampleExternals : Externals where
  COIN_RIS_LENGTH := 2
  IDENT_STR := "ID".toList
  BANK_STR := "BANK".toList
  hash := fun bs => bs.map fun b => Char.ofNat (b % 26 + 97)
  verify := fun sig msg _ _ => sig == msg.length
  bufToString := fun bs => bs.map Char.ofNat

/-- A sample coin of owner `a`, consistent with `sampleExternals`. -/
def sampleCoin : Coin where
  signature := 25
  hash := none
  n := "n".toList
  e := "e".toList
  coinString := "BANK-20-7-bcd,efg-usu,znz".toList
  getRis := fun isLeft i =>
    if isLeft then [(⟨1, [1, 2, 3]⟩ : Buffer), ⟨2, [4, 5, 6]⟩].getD i ⟨0, []⟩
    else [(⟨3, [72, 70, 98]⟩ : Buffer), ⟨4, [77, 65, 103]⟩].getD i ⟨0, []⟩

/-- The test of the loop of `acceptCoin` at index `i`: the hash of the share
of the chosen side is not the `i`-th selected commitment (also when there is
no `i`-th commitment). -/
def shareMismatch (ext : Externals) (coin : Coin) (isLeft : Bool)
    (selectedHashes : List JSString) (i : Nat) : Bool :=
  decide (some (ext.hash (coin.getRis isLeft i).bytes) ≠ selectedHashes[i]?)

/-- The canonical string of invariant I3, built from the textual forms of
its parts: `BANK_STR-amount-id-l1,l2,...-r1,r2,...`. -/
def canonicalString (BANK_STR amount guid : JSString) (leftHashes rightHashes : List JSString) :
    JSString :=
  BANK_STR ++ '-' :: amount ++ '-' :: guid ++ '-' :: [','].intercalate leftHashes ++
    '-' :: [','].intercalate rightHashes

/-- The sample coin with a `hash` field, and a signature that fits that field
and not the canonical string. -/
def hashFieldCoin : Coin :=
  { sampleCoin with hash := some "x".toList, signature := 1 }

/-- The sample coin with the commitment of the right share at index 1
replaced. -/
def tamperedCoin : Coin :=
  { sampleCoin with coinString := "BANK-20-7-bcd,efg-usu,zzz".toList }

end Driver

namespace Lab2

open Driver (JSString)

/-- The imports of `driver1-lab2.js` that the repository does not define:
the agency's public key and the operations of `blind-signatures`.  The
library draws the blinding factor at random; here the draw is the last
argument of `blind`. -/
structure BlindSignatures where
  /-- `agency.n` -/
  n : Nat
  /-- `agency.e` -/
  e : Nat
  /-- `blindSignatures.blind({message, N, E})`, giving `{blinded, r}`. -/
  blind : JSString → Nat → Nat → Nat → Nat × Nat
  /-- `blindSignatures.unblind({signed, N, r})`; `r` may be `undefined`. -/
  unblind : Nat → Nat → Option Nat → Nat
  /-- The agency's signature of a blinded document. -/
  sign : Nat → Nat
  /-- `blindSignatures.verify({unblinded, N, E, message})`. -/
  verify : Nat → Nat → Nat → JSString → Bool

/-- `makeDocument(coverName)`. -/
def makeDocument (coverName : JSString) : JSString :=
  "The bearer of this signed document, ".toList ++ coverName ++
    ", has full diplomatic immunity.".toList

/-- `blind(msg, agency)`, with the library's random draw `rand`. -/
def blind (lib : BlindSignatures) (msg : JSString) (rand : Nat) : Nat × Nat :=
  lib.blind msg lib.n lib.e rand

/-- `unblind(blindingFactor, sig, agency)`. -/
def unblind (lib : BlindSignatures) (blindingFactor : Option Nat) (sig : Nat) : Nat :=
  lib.unblind sig lib.n blindingFactor

/-- The ten cover names of step 1. -/
def coverNames : List JSString :=
  ["Agent X", "Shadow", "Ghost", "Phantom", "Nightfall",
    "Specter", "Raven", "Falcon", "Viper", "Cipher"].map String.toList

/-- `originalDocs`. -/
def originalDocs : List JSString := coverNames.map makeDocument

/-- Step 1: `originalDocs.map(doc => { let { blinded, r } = blind(doc, agency);
blindingFactors.push(r); return blinded; })`.  The `k`-th call of `blind`
draws `rand k`.  The value is `(blindDocs, blindingFactors)`. -/
def blindAll (lib : BlindSignatures) (rand : Nat → Nat) (docs : List JSString) :
    List Nat × List Nat :=
  let blindings := docs.enum.map fun p => blind lib p.2 (rand p.1)
  (blindings.map Prod.fst, blindings.map Prod.snd)

/-- The masking of step 3: `xs.map((x, index) => index === selected ? undefined : x)`. -/
def maskSelected {α : Type} (selected : Nat) (xs : List α) : List (Option α) :=
  xs.enum.map fun p => if p.1 = selected then none else some p.2

/-- The two arguments the callback passes to `verifyAndSign`:
`(maskedBlindingFactors, maskedOriginalDocs)`. -/
def disclosure (selected : Nat) (blindingFactors : List Nat) (docs : List JSString) :
    List (Option Nat) × List (Option JSString) :=
  (maskSelected selected blindingFactors, maskSelected selected docs)

/-- The callback given to `agency.signDocument`: steps 3 to 5.  The value is
`finalSignature`; an exception of `verifyAndSign` goes through. -/
def requesterCallback {ε : Type} (lib : BlindSignatures) (blindingFactors : List Nat)
    (docs : List JSString) (selected : Nat)
    (verifyAndSign : List (Option Nat) → List (Option JSString) → Except ε Nat) :
    Except ε Nat :=
  let maskedBlindingFactors := maskSelected selected blindingFactors
  let maskedOriginalDocs := maskSelected selected docs
  match verifyAndSign maskedBlindingFactors maskedOriginalDocs with
  | .error err => .error err
  | .ok blindedSignature =>
    let finalSignature := unblind lib blindingFactors[selected]? blindedSignature
    .ok finalSignature

/-- Toy primitives: blinding adds the draw, signing adds a secret, unblinding
subtracts the draw. -/
def sampleBlindSignatures : BlindSignatures where
  n := 0
  e := 0
  blind := fun msg _ _ rand => (msg.length + rand, rand)
  unblind := fun signed _ r => signed - r.getD 0
  sign := fun blinded => blinded + 7
  verify := fun unblinded _ _ msg => unblinded == msg.length + 7

/-- Modelled from the spec: the one fault of a fair-signing session,
`CandidateMismatch(index)`. -/
inductive SessionError where
  | candidateMismatch (index : Nat)
deriving DecidableEq, Repr

/-- Modelled from the spec: what a fair-signing session leaves behind, the
blinded forms the agency signed and the blind signature returned or the fault
raised. -/
structure SessionRun where
  signed : List Nat
  result : Except SessionError Nat

/-- Modelled from the spec: step 3 of the FairSigningCoordinator (class
`SpyAgency` of `spyAgency.js`, not in the sources) at one disclosed index:
the plaintext re-blinded with the disclosed blinding factor is the blinded
form submitted.  `reblind` is the external primitive; a candidate that was
not disclosed cannot be re-derived. -/
def candidateConsistent (reblind : JSString → Nat → Nat) (blindDocs : List Nat)
    (blindingFactors : List (Option Nat)) (docs : List (Option JSString)) (i : Nat) : Bool :=
  match blindDocs[i]?, blindingFactors[i]?, docs[i]? with
  | some blindedForm, some (some blindingFactor), some (some plaintext) =>
    reblind plaintext blindingFactor == blindedForm
  | _, _, _ => false

/-- Modelled from the spec: the verification pass of the
FairSigningCoordinator over the indices from `i` on, `fuel` of them; the
sealed index is skipped, the first disclosed index that does not re-derive
its blinded form is the fault. -/
def verifyDisclosed (reblind : JSString → Nat → Nat) (blindDocs : List Nat) (selected : Nat)
    (blindingFactors : List (Option Nat)) (docs : List (Option JSString)) :
    Nat → Nat → Except SessionError Unit
  | 0, _ => .ok ()
  | fuel + 1, i =>
    if i ≠ selected ∧ candidateConsistent reblind blindDocs blindingFactors docs i = false then
      .error (.candidateMismatch i)
    else
      verifyDisclosed reblind blindDocs selected blindingFactors docs fuel (i + 1)

/-- Modelled from the spec: steps 3 and 4 of the FairSigningCoordinator
(`SpyAgency.signDocument` of `spyAgency.js`, not in the sources), the
function handed to the requester as `verifyAndSign`: every disclosed
candidate is verified; on a fault the request is rejected and nothing is
signed; otherwise only the sealed candidate's blinded form is signed. -/
def verifyAndSign (lib : BlindSignatures) (reblind : JSString → Nat → Nat)
    (blindDocs : List Nat) (selected : Fin blindDocs.length)
    (blindingFactors : List (Option Nat)) (docs : List (Option JSString)) : SessionRun :=
  match verifyDisclosed reblind blindDocs selected blindingFactors docs blindDocs.length 0 with
  | .error err => ⟨[], .error err⟩
  | .ok () => ⟨[blindDocs[selected]], .ok (lib.sign blindDocs[selected])⟩

end Lab2

namespace Lab1

open Driver (JSString)

/-- A number of `Lab1.js` under exact arithmetic: `some q` is the rational
`q`; `none` is a result that is not a finite number (a division by zero, an
operand that is `undefined` or itself not finite), which the model does not
follow further. -/
abbrev JSNumber := Option ℚ

/-- `a / b`. -/
def JSNumber.div (a b : JSNumber) : JSNumber :=
  match a, b with
  | some x, some y => if y = 0 then none else some (x / y)
  | _, _ => none

/-- `a * b`. -/
def JSNumber.mul (a b : JSNumber) : JSNumber :=
  match a, b with
  | some x, some y => some (x * y)
  | _, _ => none

/-- An object literal `{}` used as a table of numbers: its own properties in
insertion order. -/
abbrev JSObject := List (JSString × JSNumber)

/-- The key `__proto__`, which an assignment `o[key] = number` does not turn
into an own property. -/
def protoKey : JSString := "__proto__".toList

/-- `o[key]`, `none` when it is `undefined`. -/
def JSObject.get (o : JSObject) (key : JSString) : Option JSNumber :=
  (o.find? fun p => p.1 = key).map Prod.snd

/-- `o[key] = v`: an existing property keeps its place, a new one goes last,
and the key `__proto__` creates nothing. -/
def JSObject.set (o : JSObject) (key : JSString) (v : JSNumber) : JSObject :=
  if key = protoKey then o
  else if o.any fun p => p.1 = key then o.map fun p => if p.1 = key then (key, v) else p
  else o ++ [(key, v)]

/-- The integer a key stands for when it is an array index: decimal digits
without a leading zero, below `2^32 - 1`. -/
def arrayIndex? (key : JSString) : Option Nat :=
  if key ≠ [] ∧ key.all Char.isDigit ∧ (key = ['0'] ∨ key.head? ≠ some '0') then
    let n := key.foldl (fun acc c => 10 * acc + (c.toNat - '0'.toNat)) 0
    if n < 2 ^ 32 - 1 then some n else none
  else
    none

/-- `Object.keys(o)`: the array-index keys in ascending order, then the other
keys in insertion order. -/
def JSObject.keys (o : JSObject) : List JSString :=
  let names := o.map Prod.fst
  let indices := names.filterMap fun key => (arrayIndex? key).map fun n => (n, key)
  (indices.insertionSort fun a b => a.1 ≤ b.1).map Prod.snd ++
    names.filter fun key => (arrayIndex? key).isNone

/-- An element of `coin2USD.rates`; the field `time` is not read. -/
structure PriceEntry where
  asset_id_quote : JSString
  rate : ℚ
deriving DecidableEq, Repr

/-- The template literal with a hyphen between two strings. -/
def tag (a b : JSString) : JSString := a ++ '-' :: b

/-- The first loop of `calculateRates`, one entry: the state is
`(rates, usdMap)`. -/
def recordUsdRate (st : JSObject × JSObject) (o : PriceEntry) : JSObject × JSObject :=
  let sym := o.asset_id_quote
  let usdRate : JSNumber := some o.rate
  let rates := st.1.set (tag "USD".toList sym) usdRate
  let rates := rates.set (tag sym "USD".toList) (JSNumber.div (some 1) usdRate)
  let usdMap := st.2.set sym usdRate
  (rates, usdMap)

/-- A read `o[key]` used as an operand: `undefined` is not a number. -/
def JSObject.num (o : JSObject) (key : JSString) : JSNumber :=
  (o.get key).join

/-- `CurrencyConverter.calculateRates(usdPrices)`. -/
def calculateRates (usdPrices : List PriceEntry) : JSObject :=
  let st := usdPrices.foldl recordUsdRate ([], [])
  let rates := st.1
  let usdMap := st.2
  let symbols := usdMap.keys
  symbols.foldl (fun rates fromSym =>
    symbols.foldl (fun rates toSym =>
      if fromSym ≠ toSym then
        let rate := JSNumber.div (usdMap.num toSym) (usdMap.num fromSym)
        rates.set (tag fromSym toSym) rate
      else rates) rates) rates

/-- A `CurrencyConverter`: its field `rates`. -/
structure CurrencyConverter where
  rates : JSObject
deriving DecidableEq, Repr

/-- `new CurrencyConverter(coin2USD)`, `usdPrices` being `coin2USD.rates`. -/
def CurrencyConverter.create (usdPrices : List PriceEntry) : CurrencyConverter :=
  ⟨calculateRates usdPrices⟩

/-- `cnv.convert(amount, fromUnits, toUnits)`; the error is the message
thrown. -/
def CurrencyConverter.convert (cnv : CurrencyConverter) (amount : JSNumber)
    (fromUnits toUnits : JSString) : Except JSString JSNumber :=
  let tag := tag fromUnits toUnits
  match cnv.rates.get tag with
  | none => .error ("Rate for ".toList ++ tag ++ " not found".toList)
  | some rate => .ok (JSNumber.mul rate amount)

/-- The `symbols` of the `UPDATE_USD_PRICE` handler:
`Object.keys(rates).filter(key => key.startsWith('USD-')).map(key => key.split('-')[1])`;
a key that starts with `USD-` has a second field. -/
def usdSymbols (rates : JSObject) : List JSString :=
  (rates.keys.filter fun key => "USD-".toList.isPrefixOf key).map
    fun key => (key.splitOn '-').getD 1 []

/-- The handler of `UPDATE_USD_PRICE` run on the event `{sym, usdPrice}`. -/
def CurrencyConverter.update (cnv : CurrencyConverter) (sym : JSString) (usdPrice : ℚ) :
    CurrencyConverter :=
  if sym = [] ∨ usdPrice = 0 ∨ usdPrice ≤ 0 then
    cnv
  else
    let rates := cnv.rates.set (tag "USD".toList sym) (some usdPrice)
    let rates := rates.set (tag sym "USD".toList) (JSNumber.div (some 1) (some usdPrice))
    let symbols := usdSymbols rates
    ⟨symbols.foldl (fun rates fromSym =>
      symbols.foldl (fun rates toSym =>
        if fromSym ≠ toSym then
          rates.set (tag fromSym toSym)
            (JSNumber.div (rates.num (tag "USD".toList toSym))
              (rates.num (tag "USD".toList fromSym)))
        else rates) rates) rates⟩

/-- The `rates` of `jsonData`. -/
def jsonData : List PriceEntry :=
  [⟨"LTC".toList, 30537365914358224607146457 / 10 ^ 27⟩,
   ⟨"BTC".toList, 2807956773388707203621601 / 10 ^ 28⟩,
   ⟨"EOS".toList, 4121926588487459038354526906 / 10 ^ 28⟩,
   ⟨"ETC".toList, 2318602151511556498865332176 / 10 ^ 28⟩,
   ⟨"ETH".toList, 86911948499158260365934815 / 10 ^ 28⟩,
   ⟨"USDT".toList, 10019743231865289462786319379 / 10 ^ 28⟩]

/-- One pass of the body of the nested loops that set the crypto-to-crypto
rates: for the pair `(from, to)` with `from !== to`, the rate of `to` divided
by the rate of `from`, both read by `read`, is stored under `from-to`. -/
def crossStep (read : JSObject → JSString → JSNumber) (rates : JSObject)
    (p : JSString × JSString) : JSObject :=
  if p.1 ≠ p.2 then
    rates.set (tag p.1 p.2) (JSNumber.div (read rates p.2) (read rates p.1))
  else rates

/-- The USD rate a price list gives for a symbol: the one of its last entry
with that symbol. -/
def usdRateOf (usdPrices : List PriceEntry) (sym : JSString) : Option ℚ :=
  (usdPrices.reverse.find? fun o => o.asset_id_quote = sym).map PriceEntry.rate

/-- The price list `usdPrices` with the rate of `sym` replaced by `usdPrice`,
or with the entry `(sym, usdPrice)` appended when `sym` is not in it. -/
def withUsdPrice (usdPrices : List PriceEntry) (sym : JSString) (usdPrice : ℚ) :
    List PriceEntry :=
  if sym ∈ usdPrices.map PriceEntry.asset_id_quote then
    usdPrices.map fun o => if o.asset_id_quote = sym then { o with rate := usdPrice } else o
  else
    usdPrices ++ [⟨sym, usdPrice⟩]

/-- A symbol that the key scheme `from-to` can carry: no hyphen in it, and it
is neither `USD` nor `__proto__`. -/
def PlainSymbol (sym : JSString) : Prop :=
  '-' ∉ sym ∧ sym ≠ "USD".toList ∧ sym ≠ protoKey

instance (sym : JSString) : Decidable (PlainSymbol sym) := by
  unfold PlainSymbol
  infer_instance

/-- The rates `ρ` are those of plain symbols and none is zero. -/
def PlainRates (ρ : JSString → Option ℚ) : Prop :=
  ∀ s r, ρ s = some r → r ≠ 0 ∧ PlainSymbol s

/-- The table `T` holds, for the USD rates `ρ`, the rate of each symbol
against USD in both directions and nothing else but keys `a-b` of two
symbols. -/
def HoldsUsdRates (ρ : JSString → Option ℚ) (T : JSObject) : Prop :=
  (∀ s r, ρ s = some r →
    T.get (tag "USD".toList s) = some (some r) ∧
    T.get (tag s "USD".toList) = some (some (1 / r))) ∧
  (∀ k, (∀ s, ρ s ≠ none → k ≠ tag "USD".toList s ∧ k ≠ tag s "USD".toList) →
    (∀ a b, ρ a ≠ none → ρ b ≠ none → a ≠ b → k ≠ tag a b) → T.get k = none)

/-- The table `T` is the full rate table of the USD rates `ρ`: the rates
against USD, and under `a-b` the rate of `b` divided by the rate of `a`. -/
def IsRateTable (ρ : JSString → Option ℚ) (T : JSObject) : Prop :=
  HoldsUsdRates ρ T ∧
  ∀ a b ra rb, a ≠ b → ρ a = some ra → ρ b = some rb → T.get (tag a b) = some (some (rb / ra))

/-- A run of `UPDATE_USD_PRICE` events, in order. -/
def CurrencyConverter.updates (cnv : CurrencyConverter) (events : List (JSString × ℚ)) :
    CurrencyConverter :=
  events.foldl (fun cnv ev => cnv.update ev.1 ev.2) cnv

/-- The USD rates after a run of events on the rates `ρ`. -/
def ratesAfter (ρ : JSString → Option ℚ) (events : List (JSString × ℚ)) :
    JSString → Option ℚ :=
  events.foldl (fun ρ ev => Function.update ρ ev.1 (some ev.2)) ρ

/-- A sample price list: 1 USD is 2 A and 4 B. -/
def samplePrices : List PriceEntry := [⟨"A".toList, 2⟩, ⟨"B".toList, 4⟩]

/-- A price list whose symbols carry hyphens: the keys of the pairs
`(a-b, c)` and `(a, b-c)` are both `a-b-c`. -/
def hyphenPrices : List PriceEntry :=
  [⟨"a-b".toList, 1⟩, ⟨"c".toList, 2⟩, ⟨"a".toList, 3⟩, ⟨"b-c".toList, 5⟩]

end Lab1

namespace Driver

/-! ## `determineCheater` -/

theorem xorBuffer_comm (a b : List Nat) (h : a.length = b.length) :
    xorBuffer a b = xorBuffer b a := by
  simp [xorBuffer, h, Nat.xor_comm]

theorem determineCheaterLoop_succ (ext : Externals) (ris1 ris2 : List Buffer) (fuel i : Nat)
    (h1 : i < ris1.length) (h2 : i < ris2.length) :
    determineCheaterLoop ext ris1 ris2 (fuel + 1) i =
      if markedAt ext ris1 ris2 i then .ok (.ownerCheated (identityAt ext ris1 ris2 i))
      else determineCheaterLoop ext ris1 ris2 fuel (i + 1) := by
  rw [determineCheaterLoop]
  simp only [markedAt, identityAt, List.getElem?_eq_getElem h1, List.getElem?_eq_getElem h2,
    identityFrom]
  by_cases hr : ris1[i].ref = ris2[i].ref
  · simp [hr]
  · by_cases hp : ext.IDENT_STR.isPrefixOf (ext.bufToString (xorBuffer ris1[i].bytes ris2[i].bytes)) = true
    · simp [hr, hp]
    · simp [hr, hp]

theorem determineCheaterLoop_unmarked (ext : Externals) (ris1 ris2 : List Buffer) :
    ∀ (fuel i : Nat), i + fuel ≤ ris1.length → i + fuel ≤ ris2.length →
      (∀ k, i ≤ k → k < i + fuel → markedAt ext ris1 ris2 k = false) →
      determineCheaterLoop ext ris1 ris2 fuel i = .ok .merchantCheated
  | 0, _, _, _, _ => by simp [determineCheaterLoop]
  | fuel + 1, i, h1, h2, h => by
    rw [determineCheaterLoop_succ ext ris1 ris2 fuel i (by omega) (by omega),
      h i (Nat.le_refl i) (by omega)]
    simp only [Bool.false_eq_true, if_false]
    exact determineCheaterLoop_unmarked ext ris1 ris2 fuel (i + 1) (by omega) (by omega)
      (fun k hk hk2 => h k (by omega) (by omega))

theorem determineCheaterLoop_first (ext : Externals) (ris1 ris2 : List Buffer) (k : Nat) :
    ∀ (fuel i : Nat), i + fuel ≤ ris1.length → i + fuel ≤ ris2.length →
      i ≤ k → k < i + fuel → markedAt ext ris1 ris2 k = true →
      (∀ j, i ≤ j → j < k → markedAt ext ris1 ris2 j = false) →
      determineCheaterLoop ext ris1 ris2 fuel i =
        .ok (.ownerCheated (identityAt ext ris1 ris2 k))
  | 0, _, _, _, _, hk, _, _ => by omega
  | fuel + 1, i, h1, h2, hik, hk, hm, hbefore => by
    rw [determineCheaterLoop_succ ext ris1 ris2 fuel i (by omega) (by omega)]
    by_cases hi : i = k
    · subst hi
      simp [hm]
    · rw [hbefore i (Nat.le_refl i) (by omega)]
      simp only [Bool.false_eq_true, if_false]
      exact determineCheaterLoop_first ext ris1 ris2 k fuel (i + 1) (by omega) (by omega)
        (by omega) (by omega) hm (fun j hj hj2 => hbefore j (by omega) hj2)

theorem determineCheaterLoop_same (ext : Externals) (ris1 ris2 : List Buffer) :
    ∀ (fuel i : Nat),
      (∀ k, i ≤ k → k < i + fuel → (ris1[k]?).map Buffer.ref = (ris2[k]?).map Buffer.ref) →
      determineCheaterLoop ext ris1 ris2 fuel i = .ok .merchantCheated
  | 0, _, _ => by simp [determineCheaterLoop]
  | fuel + 1, i, h => by
    have hi := h i (Nat.le_refl i) (by omega)
    have ih := determineCheaterLoop_same ext ris1 ris2 fuel (i + 1)
      (fun k hk hk2 => h k (by omega) (by omega))
    rw [determineCheaterLoop]
    cases h1 : ris1[i]? <;> cases h2 : ris2[i]? <;> simp [h1, h2] at hi ⊢
    · exact ih
    · simp [hi, ih]

/-- C1: for a coin whose shares satisfy I2 and two reveal lists that take, at
each index, the coin's left or right share, with opposite sides at one index
at least, `determineCheater` names the owner, with the identity given at
issuance. -/
theorem determineCheater_double_spend (ext : Externals) (guid : JSString) (coin : Coin)
    (identity : JSString) (side1 side2 : Nat → Bool) (ris1 ris2 : List Buffer)
    (hI2 : SharesEncodeIdentity ext coin identity)
    (hdistinct : ∀ i < ext.COIN_RIS_LENGTH, (coin.getRis true i).ref ≠ (coin.getRis false i).ref)
    (hris1 : ris1 = (List.range ext.COIN_RIS_LENGTH).map fun i => coin.getRis (side1 i) i)
    (hris2 : ris2 = (List.range ext.COIN_RIS_LENGTH).map fun i => coin.getRis (side2 i) i)
    (hopposite : ∃ k < ext.COIN_RIS_LENGTH, side1 k ≠ side2 k) :
    determineCheater ext guid ris1 ris2 = .ok (.ownerCheated identity) := by
  have hl1 : ris1.length = ext.COIN_RIS_LENGTH := by simp [hris1]
  have hl2 : ris2.length = ext.COIN_RIS_LENGTH := by simp [hris2]
  have hg1 : ∀ i < ext.COIN_RIS_LENGTH, ris1[i]? = some (coin.getRis (side1 i) i) := by
    intro i hi; simp [hris1, hi]
  have hg2 : ∀ i < ext.COIN_RIS_LENGTH, ris2[i]? = some (coin.getRis (side2 i) i) := by
    intro i hi; simp [hris2, hi]
  have hsameside : ∀ i < ext.COIN_RIS_LENGTH, side1 i = side2 i →
      markedAt ext ris1 ris2 i = false := by
    intro i hi hs
    simp [markedAt, hg1 i hi, hg2 i hi, hs]
  have hopp : ∀ i < ext.COIN_RIS_LENGTH, side1 i ≠ side2 i →
      markedAt ext ris1 ris2 i = true ∧ identityAt ext ris1 ris2 i = identity := by
    intro i hi hs
    obtain ⟨hlen, hxor⟩ := hI2 i hi
    have hxor2 := hxor
    rw [xorBuffer_comm _ _ hlen] at hxor2
    have hd := hdistinct i hi
    simp only [markedAt, identityAt, hg1 i hi, hg2 i hi]
    cases h1 : side1 i <;> cases h2 : side2 i <;> simp_all [Ne.symm hd]
  have hex : ∃ k, k < ext.COIN_RIS_LENGTH ∧ side1 k ≠ side2 k := by
    obtain ⟨k, hk, hs⟩ := hopposite
    exact ⟨k, hk, hs⟩
  classical
  have hk := Nat.find_spec hex
  have hmin : ∀ j, j < Nat.find hex → side1 j = side2 j := by
    intro j hj
    by_contra hne
    exact Nat.find_min hex hj ⟨by omega, hne⟩
  unfold determineCheater
  rw [determineCheaterLoop_first ext ris1 ris2 (Nat.find hex) ext.COIN_RIS_LENGTH 0
    (by omega) (by omega) (Nat.zero_le _) (by omega) (hopp _ hk.1 hk.2).1
    (fun j _ hj => hsameside j (by omega) (hmin j hj)), (hopp _ hk.1 hk.2).2]

/-- Witness of C1 on the sample coin: first spend all left, second spend
right at index 1. -/
theorem determineCheater_double_spend_witness :
    determineCheater sampleExternals "guid".toList
      [⟨1, [1, 2, 3]⟩, ⟨2, [4, 5, 6]⟩] [⟨1, [1, 2, 3]⟩, ⟨4, [77, 65, 103]⟩] =
      .ok (.ownerCheated "a".toList) :=
  determineCheater_double_spend sampleExternals "guid".toList sampleCoin "a".toList
    (fun _ => true) (fun i => decide (i = 0)) _ _
    (by decide) (by decide) (by rfl) (by rfl) ⟨1, by decide, by decide⟩

/-- C2: when at every index the two lists hold the same buffer (or both
nothing), `determineCheater` names the merchant and not the owner, whatever
the buffers contain; so it does on one list given twice. -/
theorem determineCheater_same_reveal (ext : Externals) (guid : JSString)
    (ris1 ris2 : List Buffer)
    (hsame : ∀ i < ext.COIN_RIS_LENGTH,
      (ris1[i]?).map Buffer.ref = (ris2[i]?).map Buffer.ref) :
    determineCheater ext guid ris1 ris2 = .ok .merchantCheated ∧
    (∀ identity, determineCheater ext guid ris1 ris2 ≠ .ok (.ownerCheated identity)) ∧
    determineCheater ext guid ris1 ris1 = .ok .merchantCheated := by
  have h := determineCheaterLoop_same ext ris1 ris2 ext.COIN_RIS_LENGTH 0
    (fun k _ hk => hsame k (by omega))
  refine ⟨h, ?_, determineCheaterLoop_same ext ris1 ris1 _ 0 (fun _ _ _ => rfl)⟩
  intro identity hc
  unfold determineCheater at hc
  rw [h] at hc
  cases hc

/-- Witness of C2: two spends of the sample coin, both on the left side. -/
theorem determineCheater_same_reveal_witness :
    determineCheater sampleExternals "guid".toList
        [⟨1, [1, 2, 3]⟩, ⟨2, [4, 5, 6]⟩] [⟨1, [1, 2, 3]⟩, ⟨2, [4, 5, 6]⟩] =
      .ok .merchantCheated :=
  (determineCheater_same_reveal sampleExternals "guid".toList
    [⟨1, [1, 2, 3]⟩, ⟨2, [4, 5, 6]⟩] [⟨1, [1, 2, 3]⟩, ⟨2, [4, 5, 6]⟩] (by decide)).1

/-- C3: on two lists of `COIN_RIS_LENGTH` buffers, `determineCheater` names
the owner exactly when some index below `COIN_RIS_LENGTH` holds two different
buffers whose XOR, read as a string, starts with `IDENT_STR`; the identity
printed is that string at the least such index without its `IDENT_STR`
prefix; when there is no such index it names the merchant. -/
theorem determineCheater_verdict (ext : Externals) (guid : JSString) (ris1 ris2 : List Buffer)
    (hlen1 : ris1.length = ext.COIN_RIS_LENGTH) (hlen2 : ris2.length = ext.COIN_RIS_LENGTH) :
    ((∃ identity, determineCheater ext guid ris1 ris2 = .ok (.ownerCheated identity)) ↔
      ∃ i < ext.COIN_RIS_LENGTH, markedAt ext ris1 ris2 i = true) ∧
    (∀ i < ext.COIN_RIS_LENGTH, markedAt ext ris1 ris2 i = true →
      (∀ j < i, markedAt ext ris1 ris2 j = false) →
      determineCheater ext guid ris1 ris2 = .ok (.ownerCheated (identityAt ext ris1 ris2 i))) ∧
    ((¬ ∃ i < ext.COIN_RIS_LENGTH, markedAt ext ris1 ris2 i = true) →
      determineCheater ext guid ris1 ris2 = .ok .merchantCheated) := by
  have hfirst : ∀ i < ext.COIN_RIS_LENGTH, markedAt ext ris1 ris2 i = true →
      (∀ j < i, markedAt ext ris1 ris2 j = false) →
      determineCheater ext guid ris1 ris2 =
        .ok (.ownerCheated (identityAt ext ris1 ris2 i)) := by
    intro i hi hm hbefore
    exact determineCheaterLoop_first ext ris1 ris2 i ext.COIN_RIS_LENGTH 0 (by omega) (by omega)
      (Nat.zero_le _) (by omega) hm (fun j _ hj => hbefore j hj)
  have hnone : (¬ ∃ i < ext.COIN_RIS_LENGTH, markedAt ext ris1 ris2 i = true) →
      determineCheater ext guid ris1 ris2 = .ok .merchantCheated := by
    intro hno
    refine determineCheaterLoop_unmarked ext ris1 ris2 ext.COIN_RIS_LENGTH 0 (by omega) (by omega)
      (fun k _ hk => ?_)
    cases hm : markedAt ext ris1 ris2 k
    · rfl
    · exact absurd ⟨k, by omega, hm⟩ hno
  refine ⟨⟨?_, ?_⟩, hfirst, hnone⟩
  · rintro ⟨identity, hid⟩
    by_contra hno
    rw [hnone hno] at hid
    cases hid
  · intro hex
    have hex2 : ∃ i, i < ext.COIN_RIS_LENGTH ∧ markedAt ext ris1 ris2 i = true := by
      obtain ⟨i, hi, hm⟩ := hex
      exact ⟨i, hi, hm⟩
    classical
    have hk := Nat.find_spec hex2
    refine ⟨_, hfirst (Nat.find hex2) hk.1 hk.2 (fun j hj => ?_)⟩
    cases hm : markedAt ext ris1 ris2 j
    · rfl
    · exact absurd ⟨by omega, hm⟩ (Nat.find_min hex2 hj)

/-- Witness of C3 on lists where only index 1 convicts the owner. -/
theorem determineCheater_verdict_witness :
    determineCheater sampleExternals "guid".toList
        [⟨1, [1, 2, 3]⟩, ⟨2, [4, 5, 6]⟩] [⟨1, [1, 2, 3]⟩, ⟨4, [77, 65, 103]⟩] =
      .ok (.ownerCheated "a".toList) :=
  (determineCheater_verdict sampleExternals "guid".toList
    [⟨1, [1, 2, 3]⟩, ⟨2, [4, 5, 6]⟩] [⟨1, [1, 2, 3]⟩, ⟨4, [77, 65, 103]⟩] rfl rfl).2.1
    1 (by decide) (by rfl) (by decide)

/-! ## `acceptCoin` -/

theorem acceptLoop_succ (ext : Externals) (coin : Coin) (isLeft : Bool)
    (sel : List JSString) (fuel i : Nat) (ris : List Buffer) (calls : List (Bool × Nat)) :
    acceptLoop ext coin isLeft sel (fuel + 1) i ris calls =
      if shareMismatch ext coin isLeft sel i then
        ⟨calls ++ [(isLeft, i)], .error (.hashMismatch i)⟩
      else
        acceptLoop ext coin isLeft sel fuel (i + 1) (ris ++ [coin.getRis isLeft i])
          (calls ++ [(isLeft, i)]) := by
  rw [acceptLoop]
  simp [shareMismatch]

theorem acceptLoop_first (ext : Externals) (coin : Coin) (isLeft : Bool)
    (sel : List JSString) (k : Nat) :
    ∀ (fuel i : Nat) (ris : List Buffer) (calls : List (Bool × Nat)),
      i ≤ k → k < i + fuel → shareMismatch ext coin isLeft sel k = true →
      (∀ j, i ≤ j → j < k → shareMismatch ext coin isLeft sel j = false) →
      (acceptLoop ext coin isLeft sel fuel i ris calls).result = .error (.hashMismatch k)
  | 0, _, _, _, _, hk, _, _ => by omega
  | fuel + 1, i, ris, calls, hik, hk, hm, hbefore => by
    rw [acceptLoop_succ]
    by_cases hi : i = k
    · subst hi
      simp [hm]
    · rw [hbefore i (Nat.le_refl i) (by omega)]
      simp only [Bool.false_eq_true, if_false]
      exact acceptLoop_first ext coin isLeft sel k fuel (i + 1) _ _ (by omega) (by omega) hm
        (fun j hj hj2 => hbefore j (by omega) hj2)

theorem acceptLoop_clean (ext : Externals) (coin : Coin) (isLeft : Bool)
    (sel : List JSString) :
    ∀ (fuel i : Nat) (ris : List Buffer) (calls : List (Bool × Nat)),
      (∀ j, i ≤ j → j < i + fuel → shareMismatch ext coin isLeft sel j = false) →
      acceptLoop ext coin isLeft sel fuel i ris calls =
        ⟨calls ++ (List.range' i fuel).map (fun j => (isLeft, j)),
          .ok (ris ++ (List.range' i fuel).map (coin.getRis isLeft))⟩
  | 0, _, _, _, _ => by simp [acceptLoop]
  | fuel + 1, i, ris, calls, h => by
    rw [acceptLoop_succ, h i (Nat.le_refl i) (by omega)]
    simp only [Bool.false_eq_true, if_false]
    rw [acceptLoop_clean ext coin isLeft sel fuel (i + 1) _ _
      (fun j hj hj2 => h j (by omega) (by omega))]
    simp [List.range'_succ]

/-- Either the loop of `acceptCoin` meets a first mismatch, or there is none
below `fuel`. -/
theorem shareMismatch_first_or_none (ext : Externals) (coin : Coin) (isLeft : Bool)
    (sel : List JSString) (n : Nat) :
    (∃ k < n, shareMismatch ext coin isLeft sel k = true ∧
      ∀ j < k, shareMismatch ext coin isLeft sel j = false) ∨
    (∀ j < n, shareMismatch ext coin isLeft sel j = false) := by
  by_cases hex : ∃ k, k < n ∧ shareMismatch ext coin isLeft sel k = true
  · left
    classical
    have hk := Nat.find_spec hex
    refine ⟨Nat.find hex, hk.1, hk.2, fun j hj => ?_⟩
    cases hm : shareMismatch ext coin isLeft sel j
    · rfl
    · exact absurd ⟨by omega, hm⟩ (Nat.find_min hex hj)
  · right
    intro j hj
    cases hm : shareMismatch ext coin isLeft sel j
    · rfl
    · exact absurd ⟨j, hj, hm⟩ hex

/-- C4, as stated, fails: the signature of `hashFieldCoin` does not verify
against `coin.toString()`, and `acceptCoin` does not throw the
invalid-signature error: it calls `getRis` and returns the shares. -/
theorem acceptCoin_verifies_hash_field :
    sampleExternals.verify hashFieldCoin.signature hashFieldCoin.coinString
        hashFieldCoin.n hashFieldCoin.e = false ∧
      (acceptCoin sampleExternals hashFieldCoin true).result ≠ .error .invalidSignature ∧
      (acceptCoin sampleExternals hashFieldCoin true).result =
        .ok [⟨1, [1, 2, 3]⟩, ⟨2, [4, 5, 6]⟩] ∧
      (acceptCoin sampleExternals hashFieldCoin true).getRisCalls = [(true, 0), (true, 1)] := by
  refine ⟨by rfl, by decide, by rfl, by rfl⟩

/-- C4, amended: `acceptCoin` verifies the signature against
`coin.hash || coin.toString()`; when that verification is false it throws the
invalid-signature error, returns no shares and makes no call to `getRis`.
When `coin.hash` is undefined or empty the message is `coin.toString()`. -/
theorem acceptCoin_invalid_signature (ext : Externals) (coin : Coin) (isLeft : Bool)
    (hinvalid : ext.verify coin.signature (verifiedMessage coin) coin.n coin.e = false) :
    (acceptCoin ext coin isLeft).result = .error .invalidSignature ∧
    (acceptCoin ext coin isLeft).getRisCalls = [] ∧
    ((coin.hash = none ∨ coin.hash = some []) → verifiedMessage coin = coin.coinString) := by
  refine ⟨by simp [acceptCoin, hinvalid], by simp [acceptCoin, hinvalid], ?_⟩
  rintro (h | h) <;> simp [verifiedMessage, h]

/-- Witness of C4: the sample coin with a wrong signature. -/
theorem acceptCoin_invalid_signature_witness :
    (acceptCoin sampleExternals { sampleCoin with signature := 0 } false).result =
      .error .invalidSignature :=
  (acceptCoin_invalid_signature sampleExternals { sampleCoin with signature := 0 } false
    (by rfl)).1

/-- C5: for a coin whose signature verifies and whose canonical string
parses, and for either side, if some index below `COIN_RIS_LENGTH` has a
share whose hash is not the commitment of that side at that index, then
`acceptCoin` throws the hash-mismatch error of the least such index, and so
returns no list of shares. -/
theorem acceptCoin_hash_mismatch (ext : Externals) (coin : Coin) (isLeft : Bool)
    (leftHashes rightHashes : List JSString)
    (hvalid : ext.verify coin.signature (verifiedMessage coin) coin.n coin.e = true)
    (hparse : parseCoin ext.BANK_STR coin.coinString = .ok (leftHashes, rightHashes))
    (hbad : ∃ i < ext.COIN_RIS_LENGTH,
      some (ext.hash (coin.getRis isLeft i).bytes) ≠
        (if isLeft then leftHashes else rightHashes)[i]?) :
    ∃ k < ext.COIN_RIS_LENGTH,
      some (ext.hash (coin.getRis isLeft k).bytes) ≠
        (if isLeft then leftHashes else rightHashes)[k]? ∧
      (∀ j < k, some (ext.hash (coin.getRis isLeft j).bytes) =
        (if isLeft then leftHashes else rightHashes)[j]?) ∧
      (acceptCoin ext coin isLeft).result = .error (.hashMismatch k) ∧
      ∀ ris, (acceptCoin ext coin isLeft).result ≠ .ok ris := by
  rcases shareMismatch_first_or_none ext coin isLeft
    (if isLeft then leftHashes else rightHashes) ext.COIN_RIS_LENGTH with ⟨k, hk, hm, hbefore⟩ | hnone
  · have hres : (acceptCoin ext coin isLeft).result = .error (.hashMismatch k) := by
      simp only [acceptCoin, hvalid, hparse]
      exact acceptLoop_first ext coin isLeft _ k ext.COIN_RIS_LENGTH 0 [] [] (Nat.zero_le _)
        (by omega) hm (fun j _ hj => hbefore j hj)
    refine ⟨k, hk, by simpa [shareMismatch] using hm, fun j hj => ?_, hres, fun ris hc => ?_⟩
    · simpa [shareMismatch] using hbefore j hj
    · rw [hres] at hc
      cases hc
  · obtain ⟨i, hi, hne⟩ := hbad
    have := hnone i hi
    simp [shareMismatch] at this
    exact absurd this hne

/-- Witness of C5: the tampered sample coin, spent on the right side. -/
theorem acceptCoin_hash_mismatch_witness :
    ∃ k < sampleExternals.COIN_RIS_LENGTH,
      some (sampleExternals.hash (tamperedCoin.getRis false k).bytes) ≠
        (if false then ["bcd".toList, "efg".toList] else ["usu".toList, "zzz".toList])[k]? ∧
      (∀ j < k, some (sampleExternals.hash (tamperedCoin.getRis false j).bytes) =
        (if false then ["bcd".toList, "efg".toList] else ["usu".toList, "zzz".toList])[j]?) ∧
      (acceptCoin sampleExternals tamperedCoin false).result = .error (.hashMismatch k) ∧
      ∀ ris, (acceptCoin sampleExternals tamperedCoin false).result ≠ .ok ris :=
  acceptCoin_hash_mismatch sampleExternals tamperedCoin false
    ["bcd".toList, "efg".toList] ["usu".toList, "zzz".toList] (by rfl) (by rfl)
    ⟨1, by decide, by decide⟩

/-- C6: when `acceptCoin` returns a list, the canonical string parsed, the
list has `COIN_RIS_LENGTH` entries, entry `i` is `coin.getRis(isLeft, i)` for
the one side `isLeft` of the call, and its hash is the `i`-th commitment of
that side in the canonical string. -/
theorem acceptCoin_returns_one_side (ext : Externals) (coin : Coin) (isLeft : Bool)
    (ris : List Buffer) (hok : (acceptCoin ext coin isLeft).result = .ok ris) :
    ∃ leftHashes rightHashes,
      parseCoin ext.BANK_STR coin.coinString = .ok (leftHashes, rightHashes) ∧
      ris.length = ext.COIN_RIS_LENGTH ∧
      ∀ i < ext.COIN_RIS_LENGTH,
        ris[i]? = some (coin.getRis isLeft i) ∧
        (if isLeft then leftHashes else rightHashes)[i]? =
          some (ext.hash (coin.getRis isLeft i).bytes) := by
  unfold acceptCoin at hok
  cases hvalid : ext.verify coin.signature (verifiedMessage coin) coin.n coin.e
  · simp [hvalid] at hok
  · cases hparse : parseCoin ext.BANK_STR coin.coinString with
    | error err => simp [hvalid, hparse] at hok
    | ok lr =>
      obtain ⟨leftHashes, rightHashes⟩ := lr
      simp only [hvalid, hparse] at hok
      refine ⟨leftHashes, rightHashes, rfl, ?_⟩
      rcases shareMismatch_first_or_none ext coin isLeft
        (if isLeft then leftHashes else rightHashes) ext.COIN_RIS_LENGTH with
        ⟨k, hk, hm, hbefore⟩ | hnone
      · have := acceptLoop_first ext coin isLeft _ k ext.COIN_RIS_LENGTH 0 [] [] (Nat.zero_le _)
          (by omega) hm (fun j _ hj => hbefore j hj)
        simp at hok
        rw [this] at hok
        cases hok
      · have := acceptLoop_clean ext coin isLeft _ ext.COIN_RIS_LENGTH 0 [] []
          (fun j _ hj => hnone j (by omega))
        simp at hok
        rw [this] at hok
        simp only [List.nil_append, Except.ok.injEq] at hok
        subst hok
        refine ⟨by simp, fun i hi => ⟨?_, ?_⟩⟩
        · simp [List.range'_eq_map_range, hi]
        · have := hnone i hi
          simp only [shareMismatch, ne_eq, decide_not, Bool.not_eq_false',
            decide_eq_true_eq] at this
          exact this.symm

/-- Witness of C6: the sample coin spent on the right side. -/
theorem acceptCoin_returns_one_side_witness :
    ∃ leftHashes rightHashes,
      parseCoin sampleExternals.BANK_STR sampleCoin.coinString =
        .ok (leftHashes, rightHashes) ∧
      [(⟨3, [72, 70, 98]⟩ : Buffer), ⟨4, [77, 65, 103]⟩].length =
        sampleExternals.COIN_RIS_LENGTH ∧
      ∀ i < sampleExternals.COIN_RIS_LENGTH,
        [(⟨3, [72, 70, 98]⟩ : Buffer), ⟨4, [77, 65, 103]⟩][i]? =
          some (sampleCoin.getRis false i) ∧
        (if false then leftHashes else rightHashes)[i]? =
          some (sampleExternals.hash (sampleCoin.getRis false i).bytes) :=
  acceptCoin_returns_one_side sampleExternals sampleCoin false
    [⟨3, [72, 70, 98]⟩, ⟨4, [77, 65, 103]⟩] (by rfl)

/-! ## `parseCoin` -/

theorem not_mem_intercalate (c sep : Char) (hne : c ≠ sep) :
    ∀ (ls : List JSString), (∀ l ∈ ls, c ∉ l) → c ∉ [sep].intercalate ls
  | [], _ => by simp [List.intercalate]
  | [l], h => by simpa [List.intercalate] using h l (by simp)
  | l :: l2 :: ls, h => by
    have ih := not_mem_intercalate c sep hne (l2 :: ls)
      (fun x hx => h x (List.mem_cons_of_mem _ hx))
    have hl := h l (by simp)
    simp only [List.intercalate, List.intersperse, List.flatten, List.mem_append,
      List.mem_singleton, not_or] at ih ⊢
    exact ⟨hl, hne, ih⟩

theorem canonicalString_eq (BANK_STR amount guid : JSString)
    (leftHashes rightHashes : List JSString) :
    canonicalString BANK_STR amount guid leftHashes rightHashes =
      ['-'].intercalate [BANK_STR, amount, guid, [','].intercalate leftHashes,
        [','].intercalate rightHashes] := by
  simp [canonicalString, List.intercalate, List.intersperse, List.flatten]

/-- C7, as stated, fails: with `COIN_RIS_LENGTH = 2` a string whose two lists
have one commitment each is parsed, not rejected. -/
theorem parseCoin_accepts_short_lists :
    ¬ ∀ s : JSString,
      ((∃ l, (s.splitOn '-')[3]? = some l ∧
          (l.splitOn ',').length < sampleExternals.COIN_RIS_LENGTH) ∨
        (∃ r, (s.splitOn '-')[4]? = some r ∧
          (r.splitOn ',').length < sampleExternals.COIN_RIS_LENGTH)) →
      ∃ err, parseCoin sampleExternals.BANK_STR s = .error err := by
  intro h
  obtain ⟨err, herr⟩ := h "BANK-20-7-bcd-usu".toList (Or.inl ⟨"bcd".toList, by rfl, by decide⟩)
  have hok : parseCoin sampleExternals.BANK_STR "BANK-20-7-bcd-usu".toList =
      .ok (["bcd".toList], ["usu".toList]) := by rfl
  rw [hok] at herr
  cases herr

/-- C7, amended: `parseCoin` throws when the first `-`-separated field is not
`BANK_STR`; when it is, and the string has a fourth and a fifth field, the
two fields split on commas are returned whatever the number of entries. -/
theorem parseCoin_checks_tag_only (BANK_STR s : JSString) :
    ((s.splitOn '-')[0]? ≠ some BANK_STR →
      parseCoin BANK_STR s = .error (.invalidIdentity (s.splitOn '-')[0]?)) ∧
    (∀ l r, (s.splitOn '-')[0]? = some BANK_STR → (s.splitOn '-')[3]? = some l →
      (s.splitOn '-')[4]? = some r →
      parseCoin BANK_STR s = .ok (l.splitOn ',', r.splitOn ',')) := by
  constructor
  · intro h
    simp [parseCoin, h]
  · intro l r h0 h3 h4
    simp [parseCoin, h0, h3, h4]

/-- Witness of C7, amended: a string with one commitment on each side. -/
theorem parseCoin_checks_tag_only_witness :
    parseCoin "BANK".toList "BANK-20-7-bcd-usu".toList =
      .ok ("bcd".toList.splitOn ',', "usu".toList.splitOn ',') :=
  (parseCoin_checks_tag_only "BANK".toList "BANK-20-7-bcd-usu".toList).2
    "bcd".toList "usu".toList (by rfl) (by rfl) (by rfl)

/-- C8: `parseCoin` inverts the canonical string.  `BANK_STR`, the amount and
the id contain no `-`, the commitments contain neither `-` nor `,`, and both
lists are non-empty. -/
theorem parseCoin_canonicalString (BANK_STR amount guid : JSString)
    (leftHashes rightHashes : List JSString)
    (hbank : '-' ∉ BANK_STR) (hamount : '-' ∉ amount) (hguid : '-' ∉ guid)
    (hleft : ∀ c ∈ leftHashes, '-' ∉ c ∧ ',' ∉ c)
    (hright : ∀ c ∈ rightHashes, '-' ∉ c ∧ ',' ∉ c)
    (hleftne : leftHashes ≠ []) (hrightne : rightHashes ≠ []) :
    parseCoin BANK_STR (canonicalString BANK_STR amount guid leftHashes rightHashes) =
      .ok (leftHashes, rightHashes) := by
  have hl : '-' ∉ [','].intercalate leftHashes :=
    not_mem_intercalate '-' ',' (by decide) leftHashes (fun c hc => (hleft c hc).1)
  have hr : '-' ∉ [','].intercalate rightHashes :=
    not_mem_intercalate '-' ',' (by decide) rightHashes (fun c hc => (hright c hc).1)
  have hfields : (canonicalString BANK_STR amount guid leftHashes rightHashes).splitOn '-' =
      [BANK_STR, amount, guid, [','].intercalate leftHashes,
        [','].intercalate rightHashes] := by
    rw [canonicalString_eq]
    apply List.splitOn_intercalate
    · intro l hl'
      simp only [List.mem_cons, List.mem_singleton, List.not_mem_nil, or_false] at hl'
      rcases hl' with rfl | rfl | rfl | rfl | rfl <;> assumption
    · simp
  have hls : ([','].intercalate leftHashes).splitOn ',' = leftHashes :=
    List.splitOn_intercalate _ ',' (fun c hc => (hleft c hc).2) hleftne
  have hrs : ([','].intercalate rightHashes).splitOn ',' = rightHashes :=
    List.splitOn_intercalate _ ',' (fun c hc => (hright c hc).2) hrightne
  simp [parseCoin, hfields, hls, hrs]

/-- Witness of C8: the canonical string of the sample coin. -/
theorem parseCoin_canonicalString_witness :
    parseCoin "BANK".toList (canonicalString "BANK".toList "20".toList "7".toList
        ["bcd".toList, "efg".toList] ["usu".toList, "znz".toList]) =
      .ok (["bcd".toList, "efg".toList], ["usu".toList, "znz".toList]) :=
  parseCoin_canonicalString "BANK".toList "20".toList "7".toList
    ["bcd".toList, "efg".toList] ["usu".toList, "znz".toList]
    (by decide) (by decide) (by decide) (by decide) (by decide) (by decide) (by decide)

end Driver

namespace Lab2

open Driver (JSString)

/-! ## The requester of `driver1-lab2.js` -/

theorem maskSelected_length {α : Type} (selected : Nat) (xs : List α) :
    (maskSelected selected xs).length = xs.length := by
  simp [maskSelected]

theorem maskSelected_getElem? {α : Type} (selected : Nat) (xs : List α) (i : Nat) :
    (maskSelected selected xs)[i]? =
      xs[i]?.map fun x => if i = selected then none else some x := by
  simp only [maskSelected, List.getElem?_map, List.getElem?_enum]
  cases xs[i]? <;> simp

theorem maskSelected_set {α : Type} (selected : Nat) (xs : List α) (x : α) :
    maskSelected selected (xs.set selected x) = maskSelected selected xs := by
  apply List.ext_getElem?
  intro i
  rw [maskSelected_getElem?, maskSelected_getElem?]
  by_cases h : i = selected
  · subst h
    by_cases hi : i < xs.length
    · simp [List.getElem?_set, hi]
    · have hle : xs.length ≤ i := Nat.le_of_not_lt hi
      simp [List.getElem?_eq_none, hle]
  · simp [List.getElem?_set, h, Ne.symm h]

theorem blindAll_getElem? (lib : BlindSignatures) (rand : Nat → Nat) (docs : List JSString)
    (i : Nat) :
    (blindAll lib rand docs).1[i]? = docs[i]?.map (fun doc => (blind lib doc (rand i)).1) ∧
    (blindAll lib rand docs).2[i]? = docs[i]?.map (fun doc => (blind lib doc (rand i)).2) := by
  simp only [blindAll, List.getElem?_map, List.getElem?_enum]
  cases docs[i]? <;> simp

/-- C9: the two lists given to `verifyAndSign` have `undefined` at the selected
index and the original value at every other index; so they are the same for
two runs that differ only in the blinding factor or the document of the
selected index, and so is what `verifyAndSign` is called with and returns. -/
theorem disclosure_hides_selected (selected : Nat) (blindingFactors : List Nat)
    (docs : List JSString) :
    (disclosure selected blindingFactors docs).1.length = blindingFactors.length ∧
    (disclosure selected blindingFactors docs).2.length = docs.length ∧
    (∀ i (hi : i < blindingFactors.length),
      (disclosure selected blindingFactors docs).1[i]? =
        some (if i = selected then none else some blindingFactors[i])) ∧
    (∀ i (hi : i < docs.length),
      (disclosure selected blindingFactors docs).2[i]? =
        some (if i = selected then none else some docs[i])) ∧
    (∀ (factor : Nat) (doc : JSString),
      disclosure selected (blindingFactors.set selected factor) (docs.set selected doc) =
        disclosure selected blindingFactors docs) ∧
    (∀ (bf2 : List Nat) (docs2 : List JSString),
      bf2.length = blindingFactors.length → docs2.length = docs.length →
      (∀ i, i ≠ selected → bf2[i]? = blindingFactors[i]?) →
      (∀ i, i ≠ selected → docs2[i]? = docs[i]?) →
      disclosure selected bf2 docs2 = disclosure selected blindingFactors docs) ∧
    (∀ (ε : Type) (lib : BlindSignatures)
      (verifyAndSign : List (Option Nat) → List (Option JSString) → Except ε Nat),
      requesterCallback lib blindingFactors docs selected verifyAndSign =
        (verifyAndSign (disclosure selected blindingFactors docs).1
          (disclosure selected blindingFactors docs).2).map
          (unblind lib blindingFactors[selected]?)) := by
  refine ⟨maskSelected_length _ _, maskSelected_length _ _, ?_, ?_, ?_, ?_, ?_⟩
  · intro i hi
    simp [disclosure, maskSelected_getElem?, List.getElem?_eq_getElem hi]
  · intro i hi
    simp [disclosure, maskSelected_getElem?, List.getElem?_eq_getElem hi]
  · intro factor doc
    simp [disclosure, maskSelected_set]
  · intro bf2 docs2 _ _ hbf hdocs
    have key : ∀ {α : Type} (xs ys : List α), (∀ i, i ≠ selected → xs[i]? = ys[i]?) →
        xs.length = ys.length → maskSelected selected xs = maskSelected selected ys := by
      intro α xs ys h hl
      apply List.ext_getElem?
      intro i
      rw [maskSelected_getElem?, maskSelected_getElem?]
      by_cases hi : i = selected
      · subst hi
        by_cases hlt : i < xs.length
        · simp [List.getElem?_eq_getElem hlt, List.getElem?_eq_getElem (hl ▸ hlt)]
        · simp [List.getElem?_eq_none (Nat.le_of_not_lt hlt),
            List.getElem?_eq_none (hl ▸ Nat.le_of_not_lt hlt)]
      · rw [h i hi]
    simp only [disclosure]
    rw [key bf2 blindingFactors hbf ‹_›, key docs2 docs hdocs ‹_›]
  · intro ε lib verifyAndSign
    simp only [requesterCallback, disclosure]
    cases verifyAndSign (maskSelected selected blindingFactors) (maskSelected selected docs) <;>
      rfl

/-- Witness of C9: three candidates, the second one selected, and a run with
another blinding factor and another document at that index. -/
theorem disclosure_hides_selected_witness :
    disclosure 1 [5, 9, 7] ["ab".toList, "zz".toList, "ef".toList] =
      disclosure 1 [5, 6, 7] ["ab".toList, "cd".toList, "ef".toList] :=
  (disclosure_hides_selected 1 [5, 6, 7] ["ab".toList, "cd".toList, "ef".toList]).2.2.2.2.2.1
    [5, 9, 7] ["ab".toList, "zz".toList, "ef".toList] (by rfl) (by rfl)
    (by intro i hi
        match i, hi with
        | 0, _ => rfl
        | 1, h => exact absurd rfl h
        | 2, _ => rfl
        | n + 3, _ => rfl)
    (by intro i hi
        match i, hi with
        | 0, _ => rfl
        | 1, h => exact absurd rfl h
        | 2, _ => rfl
        | n + 3, _ => rfl)

/-- C10: the callback unblinds with `blindingFactors[selected]`, the factor
drawn when `docs[selected]` was blinded into `blindDocs[selected]`; when the
agency answers with its signature of `blindDocs[selected]` and the library
verifies every unblinded signature of a blinded message, the final signature
verifies for `docs[selected]`. -/
theorem requesterCallback_signature_verifies {ε : Type} (lib : BlindSignatures)
    (rand : Nat → Nat) (docs : List JSString) (selected : Nat)
    (verifyAndSign : List (Option Nat) → List (Option JSString) → Except ε Nat)
    (hselected : selected < docs.length)
    (hlib : ∀ msg r, lib.verify
      (unblind lib (some (blind lib msg r).2) (lib.sign (blind lib msg r).1)) lib.n lib.e msg = true)
    (hagency : ∀ blinded, (blindAll lib rand docs).1[selected]? = some blinded →
      verifyAndSign (maskSelected selected (blindAll lib rand docs).2)
        (maskSelected selected docs) = .ok (lib.sign blinded)) :
    (blindAll lib rand docs).1[selected]? = some (blind lib docs[selected] (rand selected)).1 ∧
    (blindAll lib rand docs).2[selected]? = some (blind lib docs[selected] (rand selected)).2 ∧
    ∃ finalSignature,
      requesterCallback lib (blindAll lib rand docs).2 docs selected verifyAndSign =
        .ok finalSignature ∧
      finalSignature = unblind lib (some (blind lib docs[selected] (rand selected)).2)
        (lib.sign (blind lib docs[selected] (rand selected)).1) ∧
      lib.verify finalSignature lib.n lib.e docs[selected] = true := by
  obtain ⟨h1, h2⟩ := blindAll_getElem? lib rand docs selected
  rw [List.getElem?_eq_getElem hselected] at h1 h2
  simp only [Option.map_some'] at h1 h2
  refine ⟨h1, h2, _, ?_, rfl, hlib _ _⟩
  simp only [requesterCallback, hagency _ h1, h2]

/-- Witness of C10: two documents, the second one selected. -/
theorem requesterCallback_signature_verifies_witness :
    ∃ finalSignature,
      requesterCallback sampleBlindSignatures
          (blindAll sampleBlindSignatures (fun k => k + 1) ["ab".toList, "cde".toList]).2
          ["ab".toList, "cde".toList] 1 (fun _ _ => (.ok 12 : Except Unit Nat)) =
        .ok finalSignature ∧
      sampleBlindSignatures.verify finalSignature 0 0 "cde".toList = true :=
  have h := (requesterCallback_signature_verifies sampleBlindSignatures (fun k => k + 1)
    ["ab".toList, "cde".toList] 1 (fun _ _ => (.ok 12 : Except Unit Nat)) (by decide)
    (by intro msg r; simp [sampleBlindSignatures, unblind, blind]; omega)
    (by intro blinded hb; cases hb; rfl)).2.2
  ⟨h.choose, h.choose_spec.1, h.choose_spec.2.2⟩

/-! ## The agency's session -/

theorem verifyDisclosed_mismatch (reblind : JSString → Nat → Nat) (blindDocs : List Nat)
    (selected : Nat) (blindingFactors : List (Option Nat)) (docs : List (Option JSString))
    (k : Nat) (hk : k ≠ selected)
    (hbad : candidateConsistent reblind blindDocs blindingFactors docs k = false) :
    ∀ (fuel i : Nat), i ≤ k → k < i + fuel →
      ∃ j, j ≠ selected ∧ j ≤ k ∧
        candidateConsistent reblind blindDocs blindingFactors docs j = false ∧
        verifyDisclosed reblind blindDocs selected blindingFactors docs fuel i =
          .error (.candidateMismatch j)
  | 0, _, _, h => by omega
  | fuel + 1, i, hik, h => by
    rw [verifyDisclosed]
    by_cases hi : i ≠ selected ∧
        candidateConsistent reblind blindDocs blindingFactors docs i = false
    · exact ⟨i, hi.1, hik, hi.2, by rw [if_pos hi]⟩
    · rw [if_neg hi]
      have hne : i ≠ k := by
        rintro rfl
        exact hi ⟨hk, hbad⟩
      exact verifyDisclosed_mismatch reblind blindDocs selected blindingFactors docs k hk hbad
        fuel (i + 1) (by omega) (by omega)

/-- C11: in a fair-signing session, when some disclosed (non-selected) index
does not re-derive its blinded form from the disclosed plaintext and blinding
factor, the session ends in `CandidateMismatch` at such an index, the agency
signs nothing, the sealed candidate included, and the requester's callback,
when these lists are its disclosure, ends with that fault instead of a final
signature. -/
theorem verifyAndSign_rejects_mismatch (lib : BlindSignatures)
    (reblind : JSString → Nat → Nat) (blindDocs : List Nat) (selected : Fin blindDocs.length)
    (disclosedFactors : List (Option Nat)) (disclosedDocs : List (Option JSString))
    (hbad : ∃ i < blindDocs.length, i ≠ selected.val ∧
      candidateConsistent reblind blindDocs disclosedFactors disclosedDocs i = false) :
    ∃ k, k ≠ selected.val ∧
      candidateConsistent reblind blindDocs disclosedFactors disclosedDocs k = false ∧
      (verifyAndSign lib reblind blindDocs selected disclosedFactors disclosedDocs).result =
        .error (.candidateMismatch k) ∧
      (verifyAndSign lib reblind blindDocs selected disclosedFactors disclosedDocs).signed = [] ∧
      (∀ sig, (verifyAndSign lib reblind blindDocs selected disclosedFactors
        disclosedDocs).result ≠ .ok sig) ∧
      (∀ (blindingFactors : List Nat) (docs : List JSString),
        maskSelected selected blindingFactors = disclosedFactors →
        maskSelected selected docs = disclosedDocs →
        requesterCallback lib blindingFactors docs selected
          (fun fs ds => (verifyAndSign lib reblind blindDocs selected fs ds).result) =
          .error (.candidateMismatch k)) := by
  obtain ⟨i, hi, hne, hbad⟩ := hbad
  obtain ⟨j, hj, _, hjbad, hrun⟩ := verifyDisclosed_mismatch reblind blindDocs selected
    disclosedFactors disclosedDocs i hne hbad blindDocs.length 0 (Nat.zero_le _) (by omega)
  have hres : verifyAndSign lib reblind blindDocs selected disclosedFactors disclosedDocs =
      ⟨[], .error (.candidateMismatch j)⟩ := by
    simp only [verifyAndSign, hrun]
  refine ⟨j, hj, hjbad, by rw [hres], by rw [hres], ?_, ?_⟩
  · intro sig hc
    rw [hres] at hc
    cases hc
  · intro blindingFactors docs hfs hds
    simp only [requesterCallback, hfs, hds, hres]

/-- Witness of C11: three candidates blinded by the sample primitives, the
second one sealed, the plaintext of the third one changed before disclosure. -/
theorem verifyAndSign_rejects_mismatch_witness :
    ∃ k, k ≠ 1 ∧
      requesterCallback sampleBlindSignatures [1, 2, 3]
          ["ab".toList, "cde".toList, "fgh".toList] 1
          (fun fs ds => (verifyAndSign sampleBlindSignatures (fun doc r => doc.length + r)
            [3, 5, 4] ⟨1, by decide⟩ fs ds).result) =
        .error (.candidateMismatch k) :=
  have h := verifyAndSign_rejects_mismatch sampleBlindSignatures (fun doc r => doc.length + r)
    [3, 5, 4] ⟨1, by decide⟩ (maskSelected 1 [1, 2, 3])
    (maskSelected 1 ["ab".toList, "cde".toList, "fgh".toList]) ⟨2, by decide, by decide, by rfl⟩
  ⟨h.choose, h.choose_spec.1,
    h.choose_spec.2.2.2.2.2 [1, 2, 3] ["ab".toList, "cde".toList, "fgh".toList] rfl rfl⟩

end Lab2

namespace Lab1

open Driver (JSString)

/-! ## The currency converter of `Lab1.js` -/

theorem find?_replace_other (key : JSString) (v : JSNumber) (k : JSString) (hk : k ≠ key) :
    ∀ o : JSObject,
      (o.map fun p => if p.1 = key then (key, v) else p).find? (fun p => p.1 = k) =
        o.find? (fun p => p.1 = k)
  | [] => rfl
  | p :: o => by
    have ih := find?_replace_other key v k hk o
    by_cases hpk : p.1 = key
    · have h1 : ¬ key = k := fun h => hk h.symm
      have h2 : ¬ p.1 = k := fun h => hk (h.symm.trans hpk)
      simp only [List.map_cons, List.find?_cons, hpk, if_true, h1, decide_False, h2]
      simpa only [hpk] using ih
    · by_cases hpk2 : p.1 = k
      · rw [List.map_cons, if_neg hpk, List.find?_cons, List.find?_cons]
        simp only [hpk2, decide_True]
      · simp only [List.map_cons, List.find?_cons, hpk, if_false, hpk2, decide_False]
        exact ih

theorem find?_replace_same (key : JSString) (v : JSNumber) :
    ∀ o : JSObject, (∃ p ∈ o, p.1 = key) →
      ((o.map fun p => if p.1 = key then (key, v) else p).find? (fun p => p.1 = key)).map
        Prod.snd = some v
  | [], h => by simp at h
  | p :: o, h => by
    by_cases hpk : p.1 = key
    · simp only [List.map_cons, List.find?_cons, hpk, if_true, decide_True, Option.map_some']
    · have h' : ∃ q ∈ o, q.1 = key := by
        obtain ⟨q, hq, hqk⟩ := h
        rcases List.mem_cons.mp hq with rfl | hq
        · exact absurd hqk hpk
        · exact ⟨q, hq, hqk⟩
      simp only [List.map_cons, List.find?_cons, hpk, if_false, decide_False]
      exact find?_replace_same key v o h'

theorem JSObject.get_set (o : JSObject) (key : JSString) (v : JSNumber) (k : JSString) :
    (o.set key v).get k = if k = key ∧ key ≠ protoKey then some v else o.get k := by
  unfold JSObject.set
  by_cases hp : key = protoKey
  · simp [hp]
  · simp only [hp, if_false, ne_eq, not_false_eq_true, and_true]
    by_cases hany : ∃ p ∈ o, p.1 = key
    · have hany' : (o.any fun p => p.1 = key) = true := by
        simpa using hany
      simp only [hany', if_true, JSObject.get]
      by_cases hk : k = key
      · subst hk
        simp only [if_true]
        exact find?_replace_same k v o hany
      · simp only [hk, if_false]
        rw [find?_replace_other key v k hk]
    · have hany' : (o.any fun p => p.1 = key) = false := by
        rw [Bool.eq_false_iff]
        intro h
        exact hany (by simpa using h)
      simp only [hany', Bool.false_eq_true, if_false, JSObject.get, List.find?_append]
      by_cases hk : k = key
      · subst hk
        have : o.find? (fun p => decide (p.1 = k)) = none := by
          rw [List.find?_eq_none]
          intro p hp hpk
          exact hany ⟨p, hp, by simpa using hpk⟩
        simp [this]
      · have : ¬ key = k := fun h => hk h.symm
        simp [hk, this]

theorem JSObject.get_isSome_iff (o : JSObject) (k : JSString) :
    (o.get k).isSome ↔ k ∈ o.map Prod.fst := by
  simp only [JSObject.get, Option.isSome_map', List.find?_isSome, List.mem_map]
  constructor
  · rintro ⟨p, hp, h⟩
    exact ⟨p, hp, by simpa using h⟩
  · rintro ⟨p, hp, h⟩
    exact ⟨p, hp, by simpa using h⟩

theorem JSObject.mem_keys (o : JSObject) (k : JSString) :
    k ∈ o.keys ↔ (o.get k).isSome := by
  rw [JSObject.get_isSome_iff]
  simp only [JSObject.keys, List.mem_append, List.mem_map, List.mem_filter]
  constructor
  · rintro (⟨p, hp, rfl⟩ | ⟨h, _⟩)
    · rw [(List.perm_insertionSort _ _).mem_iff, List.mem_filterMap] at hp
      obtain ⟨key, hkey, hmap⟩ := hp
      cases hidx : arrayIndex? key with
      | none => simp [hidx] at hmap
      | some n =>
        simp only [hidx, Option.map_some', Option.some.injEq] at hmap
        subst hmap
        simpa using hkey
    · simpa using h
  · intro h
    cases hidx : arrayIndex? k with
    | none => exact Or.inr ⟨by simpa using h, by simp [hidx]⟩
    | some n =>
      refine Or.inl ⟨(n, k), ?_, rfl⟩
      rw [(List.perm_insertionSort _ _).mem_iff, List.mem_filterMap]
      exact ⟨k, by simpa using h, by simp [hidx]⟩

theorem tag_inj (a b c d : JSString) (ha : '-' ∉ a) (hc : '-' ∉ c) (h : tag a b = tag c d) :
    a = c ∧ b = d := by
  induction a generalizing c with
  | nil =>
    cases c with
    | nil => simpa [tag] using h
    | cons x c =>
      simp only [tag, List.nil_append, List.cons_append, List.cons.injEq] at h
      exact absurd (h.1 ▸ List.mem_cons_self _ _) hc
  | cons x a ih =>
    cases c with
    | nil =>
      simp only [tag, List.nil_append, List.cons_append, List.cons.injEq] at h
      exact absurd (h.1 ▸ List.mem_cons_self _ _) ha
    | cons y c =>
      simp only [tag, List.cons_append, List.cons.injEq] at h
      obtain ⟨hxy, hrest⟩ := h
      have := ih c (fun hm => ha (List.mem_cons_of_mem _ hm))
        (fun hm => hc (List.mem_cons_of_mem _ hm)) hrest
      exact ⟨by rw [hxy, this.1], this.2⟩

theorem tag_ne_protoKey (a b : JSString) : tag a b ≠ protoKey := by
  intro h
  have : '-' ∈ tag a b := by simp [tag]
  rw [h] at this
  revert this
  decide

theorem usd_hyphen_free : '-' ∉ "USD".toList := by decide

theorem startsWith_usd_tag (a b : JSString) (ha : '-' ∉ a)
    (h : "USD-".toList.isPrefixOf (tag a b) = true) : a = "USD".toList := by
  rw [List.isPrefixOf_iff_prefix] at h
  obtain ⟨t, ht⟩ := h
  have h2 : tag a b = tag "USD".toList t := by
    rw [← ht]
    rfl
  exact (tag_inj a b _ t ha usd_hyphen_free h2).1

theorem usd_tag_startsWith (s : JSString) : "USD-".toList.isPrefixOf (tag "USD".toList s) = true := by
  rw [List.isPrefixOf_iff_prefix]
  exact ⟨s, rfl⟩

theorem usd_tag_symbol (s : JSString) (hs : '-' ∉ s) :
    ((tag "USD".toList s).splitOn '-').getD 1 [] = s := by
  have h : tag "USD".toList s = ['-'].intercalate ["USD".toList, s] := by
    simp [tag, List.intercalate, List.intersperse, List.flatten]
  rw [h, List.splitOn_intercalate _ '-' _ (by simp)]
  · rfl
  · intro l hl
    simp only [List.mem_cons, List.mem_singleton, List.not_mem_nil, or_false] at hl
    rcases hl with rfl | rfl
    · exact usd_hyphen_free
    · exact hs

theorem nested_foldl_eq {σ : Type} (f : σ → JSString → JSString → σ) (inner : List JSString) :
    ∀ (outer : List JSString) (init : σ),
      outer.foldl (fun st a => inner.foldl (fun st b => f st a b) st) init =
        (outer.flatMap fun a => inner.map fun b => (a, b)).foldl (fun st p => f st p.1 p.2) init
  | [], _ => rfl
  | a :: outer, init => by
    simp only [List.foldl_cons, List.flatMap_cons, List.foldl_append, List.foldl_map]
    exact nested_foldl_eq f inner outer _

theorem mem_pairs (symbols : List JSString) (p : JSString × JSString) :
    p ∈ (symbols.flatMap fun a => symbols.map fun b => (a, b)) ↔
      p.1 ∈ symbols ∧ p.2 ∈ symbols := by
  obtain ⟨a, b⟩ := p
  simp only [List.mem_flatMap, List.mem_map, Prod.mk.injEq]
  constructor
  · rintro ⟨x, hx, y, hy, rfl, rfl⟩
    exact ⟨hx, hy⟩
  · rintro ⟨ha, hb⟩
    exact ⟨a, ha, b, hb, rfl, rfl⟩

theorem crossStep_get (read : JSObject → JSString → JSNumber) (T : JSObject)
    (p : JSString × JSString) (k : JSString) :
    (crossStep read T p).get k =
      if k = tag p.1 p.2 ∧ p.1 ≠ p.2 then some (JSNumber.div (read T p.2) (read T p.1))
      else T.get k := by
  unfold crossStep
  by_cases h : p.1 = p.2
  · simp [h]
  · simp [h, JSObject.get_set, tag_ne_protoKey]

theorem crossFold_spec (read : JSObject → JSString → JSNumber) :
    ∀ (ps : List (JSString × JSString)) (T : JSObject),
      (∀ p ∈ ps, '-' ∉ p.1) →
      (∀ (T : JSObject) (p : JSString × JSString) (v : JSNumber) (s : JSString), p ∈ ps →
        read (T.set (tag p.1 p.2) v) s = read T s) →
      (∀ s, read (ps.foldl (crossStep read) T) s = read T s) ∧
      (∀ p ∈ ps, p.1 ≠ p.2 → (ps.foldl (crossStep read) T).get (tag p.1 p.2) =
        some (JSNumber.div (read T p.2) (read T p.1))) ∧
      (∀ k, (∀ p ∈ ps, p.1 ≠ p.2 → k ≠ tag p.1 p.2) →
        (ps.foldl (crossStep read) T).get k = T.get k)
  | [], T, _, _ => by simp
  | p :: ps, T, hfree, hstable => by
    have hread : ∀ s, read (crossStep read T p) s = read T s := by
      intro s
      unfold crossStep
      by_cases h : p.1 = p.2
      · simp [h]
      · simp only [ne_eq, h, not_false_eq_true, if_true]
        exact hstable T p _ s (List.mem_cons_self _ _)
    obtain ⟨ih1, ih2, ih3⟩ := crossFold_spec read ps (crossStep read T p)
      (fun q hq => hfree q (List.mem_cons_of_mem _ hq))
      (fun T q v s hq => hstable T q v s (List.mem_cons_of_mem _ hq))
    simp only [List.foldl_cons]
    refine ⟨fun s => by rw [ih1, hread], ?_, ?_⟩
    · intro q hq hne
      by_cases hmem : q ∈ ps
      · rw [ih2 q hmem hne, hread, hread]
      · have hqp : q = p := by
          rcases List.mem_cons.mp hq with h | h
          · exact h
          · exact absurd h hmem
        subst hqp
        rw [ih3]
        · rw [crossStep_get]
          simp [hne]
        · intro q' hq' _ heq
          have := tag_inj q.1 q.2 q'.1 q'.2 (hfree q (List.mem_cons_self _ _))
            (hfree q' (List.mem_cons_of_mem _ hq')) heq
          exact hmem (by rw [Prod.ext this.1 this.2]; exact hq')
    · intro k hk
      rw [ih3 k (fun q hq hne => hk q (List.mem_cons_of_mem _ hq) hne), crossStep_get]
      by_cases hne : p.1 = p.2
      · simp [hne]
      · have := hk p (List.mem_cons_self _ _) hne
        simp [this]

theorem usdRateOf_append (P : List PriceEntry) (o : PriceEntry) (s : JSString) :
    usdRateOf (P ++ [o]) s =
      if o.asset_id_quote = s then some o.rate else usdRateOf P s := by
  simp only [usdRateOf, List.reverse_append, List.reverse_singleton, List.singleton_append,
    List.find?_cons]
  by_cases h : o.asset_id_quote = s <;> simp [h]

theorem usdRateOf_ne_none (P : List PriceEntry) (s : JSString) (h : usdRateOf P s ≠ none) :
    ∃ o ∈ P, o.asset_id_quote = s := by
  simp only [usdRateOf, ne_eq, Option.map_eq_none', ← Option.isSome_iff_ne_none,
    List.find?_isSome] at h
  obtain ⟨o, ho, hs⟩ := h
  exact ⟨o, by simpa using ho, by simpa using hs⟩

theorem usdRateOf_of_mem (P : List PriceEntry) (o : PriceEntry) (ho : o ∈ P) :
    usdRateOf P o.asset_id_quote ≠ none := by
  simp only [usdRateOf, ne_eq, Option.map_eq_none', ← Option.isSome_iff_ne_none,
    List.find?_isSome]
  exact ⟨o, by simpa using ho, by simp⟩

theorem usdRateOf_of_nodup :
    ∀ (P : List PriceEntry), (P.map PriceEntry.asset_id_quote).Nodup →
      ∀ o ∈ P, usdRateOf P o.asset_id_quote = some o.rate := by
  intro P
  induction P using List.reverseRecOn with
  | nil => simp
  | append_singleton P x ih =>
    intro hnd o ho
    rw [usdRateOf_append]
    rw [List.map_append, List.nodup_append] at hnd
    obtain ⟨hP, _, hdisj⟩ := hnd
    rcases List.mem_append.mp ho with h | h
    · have hne : ¬ x.asset_id_quote = o.asset_id_quote := by
        intro heq
        exact hdisj (List.mem_map_of_mem _ h) (by simp [heq])
      simp only [hne, if_false]
      exact ih hP o h
    · simp only [List.mem_singleton] at h
      subst h
      simp

theorem firstLoop_append (P : List PriceEntry) (o : PriceEntry) :
    (P ++ [o]).foldl recordUsdRate ([], []) =
      recordUsdRate (P.foldl recordUsdRate ([], [])) o := by
  simp [List.foldl_append]

theorem firstLoop_usdMap (P : List PriceEntry) (s : JSString) :
    (P.foldl recordUsdRate ([], [])).2.get s =
      if s = protoKey then none else (usdRateOf P s).map some := by
  induction P using List.reverseRecOn with
  | nil => simp [JSObject.get, usdRateOf]
  | append_singleton P o ih =>
    rw [firstLoop_append, usdRateOf_append]
    simp only [recordUsdRate, JSObject.get_set, ih]
    by_cases hs : s = protoKey
    · subst hs
      by_cases h : protoKey = o.asset_id_quote <;> simp [h]
    · by_cases h : s = o.asset_id_quote
      · subst h
        simp [hs]
      · have h' : ¬ o.asset_id_quote = s := fun e => h e.symm
        simp [hs, h, h']

theorem firstLoop_rates (P : List PriceEntry)
    (hfree : ∀ o ∈ P, '-' ∉ o.asset_id_quote)
    (husd : ∀ o ∈ P, o.asset_id_quote ≠ "USD".toList) :
    (∀ s, (P.foldl recordUsdRate ([], [])).1.get (tag "USD".toList s) =
      (usdRateOf P s).map some) ∧
    (∀ s, '-' ∉ s → (P.foldl recordUsdRate ([], [])).1.get (tag s "USD".toList) =
      (usdRateOf P s).map fun r => JSNumber.div (some 1) (some r)) ∧
    (∀ k, (P.foldl recordUsdRate ([], [])).1.get k ≠ none →
      ∃ o ∈ P, k = tag "USD".toList o.asset_id_quote ∨ k = tag o.asset_id_quote "USD".toList) := by
  induction P using List.reverseRecOn with
  | nil => simp [JSObject.get, usdRateOf]
  | append_singleton P o ih =>
    obtain ⟨ih1, ih2, ih3⟩ := ih (fun x hx => hfree x (List.mem_append_left _ hx))
      (fun x hx => husd x (List.mem_append_left _ hx))
    have hof : '-' ∉ o.asset_id_quote := hfree o (by simp)
    have hou : o.asset_id_quote ≠ "USD".toList := husd o (by simp)
    rw [firstLoop_append]
    simp only [recordUsdRate, JSObject.get_set, tag_ne_protoKey, ne_eq, not_false_eq_true,
      and_true]
    refine ⟨fun s => ?_, fun s hs => ?_, fun k hk => ?_⟩
    · rw [usdRateOf_append]
      have h1 : ¬ tag "USD".toList s = tag o.asset_id_quote "USD".toList := by
        intro h
        exact hou (tag_inj _ _ _ _ usd_hyphen_free hof h).1.symm
      simp only [h1, if_false]
      by_cases h : o.asset_id_quote = s
      · subst h
        simp
      · have h2 : ¬ tag "USD".toList s = tag "USD".toList o.asset_id_quote := by
          intro e
          exact h (tag_inj _ _ _ _ usd_hyphen_free usd_hyphen_free e).2.symm
        simp only [h2, if_false, h]
        exact ih1 s
    · rw [usdRateOf_append]
      by_cases h : o.asset_id_quote = s
      · subst h
        simp
      · have h1 : ¬ tag s "USD".toList = tag o.asset_id_quote "USD".toList := by
          intro e
          exact h (tag_inj _ _ _ _ hs hof e).1.symm
        have h2 : ¬ tag s "USD".toList = tag "USD".toList o.asset_id_quote := by
          intro e
          exact hou (tag_inj _ _ _ _ hs usd_hyphen_free e).2.symm
        simp only [h1, h2, if_false, h]
        exact ih2 s hs
    · by_cases h1 : k = tag o.asset_id_quote "USD".toList
      · exact ⟨o, by simp, Or.inr h1⟩
      · by_cases h2 : k = tag "USD".toList o.asset_id_quote
        · exact ⟨o, by simp, Or.inl h2⟩
        · simp only [h1, h2, if_false] at hk
          obtain ⟨x, hx, hx2⟩ := ih3 k hk
          exact ⟨x, List.mem_append_left _ hx, hx2⟩

theorem usdMap_mem_keys (P : List PriceEntry) (s : JSString) :
    s ∈ (P.foldl recordUsdRate ([], [])).2.keys ↔ s ≠ protoKey ∧ usdRateOf P s ≠ none := by
  rw [JSObject.mem_keys, firstLoop_usdMap]
  by_cases hs : s = protoKey
  · simp [hs]
  · cases usdRateOf P s <;> simp [hs]

theorem usdMap_num (P : List PriceEntry) (s : JSString) (hs : s ≠ protoKey) :
    (P.foldl recordUsdRate ([], [])).2.num s = usdRateOf P s := by
  rw [JSObject.num, firstLoop_usdMap]
  cases usdRateOf P s <;> simp [hs]

theorem calculateRates_eq (P : List PriceEntry) :
    calculateRates P =
      (((P.foldl recordUsdRate ([], [])).2.keys.flatMap fun a =>
        (P.foldl recordUsdRate ([], [])).2.keys.map fun b => (a, b))).foldl
        (crossStep fun _ s => (P.foldl recordUsdRate ([], [])).2.num s)
        (P.foldl recordUsdRate ([], [])).1 := by
  exact nested_foldl_eq (fun (st : JSObject) a b => if a ≠ b then
    st.set (tag a b) (JSNumber.div ((P.foldl recordUsdRate ([], [])).2.num b)
      ((P.foldl recordUsdRate ([], [])).2.num a)) else st) _ _ _

theorem calculateRates_cross (P : List PriceEntry)
    (hfree : ∀ o ∈ P, '-' ∉ o.asset_id_quote) :
    (∀ a b ra rb, a ≠ b → a ≠ protoKey → b ≠ protoKey →
      usdRateOf P a = some ra → usdRateOf P b = some rb →
      (calculateRates P).get (tag a b) = some (JSNumber.div (some rb) (some ra))) ∧
    (∀ k, (∀ a b, usdRateOf P a ≠ none → usdRateOf P b ≠ none → a ≠ b → k ≠ tag a b) →
      (calculateRates P).get k = (P.foldl recordUsdRate ([], [])).1.get k) := by
  have hkeysfree : ∀ p ∈ ((P.foldl recordUsdRate ([], [])).2.keys.flatMap fun a =>
      (P.foldl recordUsdRate ([], [])).2.keys.map fun b => (a, b)), '-' ∉ p.1 := by
    intro p hp
    rw [mem_pairs, usdMap_mem_keys] at hp
    obtain ⟨o, ho, hs⟩ := usdRateOf_ne_none P p.1 hp.1.2
    rw [← hs]
    exact hfree o ho
  obtain ⟨_, h2, h3⟩ := crossFold_spec
    (fun _ s => (P.foldl recordUsdRate ([], [])).2.num s) _
    (P.foldl recordUsdRate ([], [])).1 hkeysfree (fun _ _ _ _ _ => rfl)
  rw [calculateRates_eq]
  constructor
  · intro a b ra rb hab hpa hpb ha hb
    have := h2 (a, b) (by
      rw [mem_pairs, usdMap_mem_keys, usdMap_mem_keys]
      exact ⟨⟨hpa, by simp [ha]⟩, ⟨hpb, by simp [hb]⟩⟩) hab
    rw [this, usdMap_num P a hpa, usdMap_num P b hpb, ha, hb]
  · intro k hk
    apply h3
    intro p hp hne
    rw [mem_pairs, usdMap_mem_keys, usdMap_mem_keys] at hp
    exact hk p.1 p.2 hp.1.2 hp.2.2 hne

theorem PlainRates.entries (P : List PriceEntry) (h : PlainRates (usdRateOf P)) :
    ∀ o ∈ P, PlainSymbol o.asset_id_quote := by
  intro o ho
  cases hr : usdRateOf P o.asset_id_quote with
  | none => exact absurd hr (usdRateOf_of_mem P o ho)
  | some r => exact (h _ r hr).2

theorem tag_usd_ne_cross (ρ : JSString → Option ℚ) (hρ : PlainRates ρ) (s a b : JSString)
    (ha : ρ a ≠ none) : tag "USD".toList s ≠ tag a b := by
  intro h
  cases hr : ρ a with
  | none => exact ha hr
  | some r =>
    have hp := (hρ a r hr).2
    exact hp.2.1 (tag_inj _ _ _ _ usd_hyphen_free hp.1 h).1.symm

theorem tag_to_usd_ne_cross (ρ : JSString → Option ℚ) (hρ : PlainRates ρ) (s a b : JSString)
    (hs : '-' ∉ s) (ha : ρ a ≠ none) (hb : ρ b ≠ none) : tag s "USD".toList ≠ tag a b := by
  intro h
  cases hra : ρ a with
  | none => exact ha hra
  | some ra =>
    cases hrb : ρ b with
    | none => exact hb hrb
    | some rb =>
      have hpa := (hρ a ra hra).2
      have hpb := (hρ b rb hrb).2
      exact hpb.2.1 (tag_inj _ _ _ _ hs hpa.1 h).2.symm

theorem div_some (x y : ℚ) (hy : y ≠ 0) : JSNumber.div (some x) (some y) = some (x / y) := by
  simp [JSNumber.div, hy]

/-- The table built by `calculateRates` is the rate table of the USD rates of
the price list. -/
theorem calculateRates_isRateTable (P : List PriceEntry) (hP : PlainRates (usdRateOf P)) :
    IsRateTable (usdRateOf P) (calculateRates P) := by
  have hplain := PlainRates.entries P hP
  have hfree : ∀ o ∈ P, '-' ∉ o.asset_id_quote := fun o ho => (hplain o ho).1
  have husd : ∀ o ∈ P, o.asset_id_quote ≠ "USD".toList := fun o ho => (hplain o ho).2.1
  obtain ⟨hc1, hc2⟩ := calculateRates_cross P hfree
  obtain ⟨hf1, hf2, hf3⟩ := firstLoop_rates P hfree husd
  refine ⟨⟨?_, ?_⟩, ?_⟩
  · intro s r hs
    obtain ⟨hr0, hsp⟩ := hP s r hs
    constructor
    · rw [hc2 _ (fun a b ha _ _ => tag_usd_ne_cross _ hP s a b ha), hf1, hs]
      rfl
    · rw [hc2 _ (fun a b ha hb _ => tag_to_usd_ne_cross _ hP s a b hsp.1 ha hb), hf2 s hsp.1, hs]
      simp [div_some 1 r hr0]
  · intro k hk1 hk2
    rw [hc2 k hk2]
    by_contra hne
    obtain ⟨o, ho, hko⟩ := hf3 k hne
    have := hk1 o.asset_id_quote (usdRateOf_of_mem P o ho)
    rcases hko with h | h
    · exact this.1 h
    · exact this.2 h
  · intro a b ra rb hab ha hb
    rw [hc1 a b ra rb hab (hP a ra ha).2.2.2 (hP b rb hb).2.2.2 ha hb,
      div_some rb ra (hP a ra ha).1]

theorem update_eq (cnv : CurrencyConverter) (sym : JSString) (usdPrice : ℚ)
    (hsym : sym ≠ []) (hprice : 0 < usdPrice) :
    (cnv.update sym usdPrice).rates =
      ((usdSymbols ((cnv.rates.set (tag "USD".toList sym) (some usdPrice)).set
          (tag sym "USD".toList) (JSNumber.div (some 1) (some usdPrice)))).flatMap fun a =>
        (usdSymbols ((cnv.rates.set (tag "USD".toList sym) (some usdPrice)).set
          (tag sym "USD".toList) (JSNumber.div (some 1) (some usdPrice)))).map
          fun b => (a, b)).foldl
        (crossStep fun T s => T.num (tag "USD".toList s))
        ((cnv.rates.set (tag "USD".toList sym) (some usdPrice)).set
          (tag sym "USD".toList) (JSNumber.div (some 1) (some usdPrice))) := by
  have hguard : ¬ (sym = [] ∨ usdPrice = 0 ∨ usdPrice ≤ 0) := by
    rintro (h | h | h)
    · exact hsym h
    · rw [h] at hprice
      exact lt_irrefl _ hprice
    · exact absurd hprice (not_lt.mpr h)
  unfold CurrencyConverter.update
  rw [if_neg hguard]
  exact nested_foldl_eq (fun (st : JSObject) a b => if a ≠ b then
    st.set (tag a b) (JSNumber.div (st.num (tag "USD".toList b))
      (st.num (tag "USD".toList a))) else st) _ _ _

theorem plainRates_update (ρ : JSString → Option ℚ) (hρ : PlainRates ρ) (sym : JSString)
    (usdPrice : ℚ) (hplain : PlainSymbol sym) (hprice : 0 < usdPrice) :
    PlainRates (Function.update ρ sym (some usdPrice)) := by
  intro s r hs
  by_cases h : s = sym
  · subst h
    simp only [Function.update_same, Option.some.injEq] at hs
    subst hs
    exact ⟨ne_of_gt hprice, hplain⟩
  · rw [Function.update_noteq h] at hs
    exact hρ s r hs

theorem holdsUsdRates_set (ρ : JSString → Option ℚ) (hρ : PlainRates ρ) (T : JSObject)
    (hT : HoldsUsdRates ρ T) (sym : JSString) (usdPrice : ℚ) (hplain : PlainSymbol sym)
    (hprice : 0 < usdPrice) :
    HoldsUsdRates (Function.update ρ sym (some usdPrice))
      ((T.set (tag "USD".toList sym) (some usdPrice)).set (tag sym "USD".toList)
        (JSNumber.div (some 1) (some usdPrice))) := by
  have hne : tag "USD".toList sym ≠ tag sym "USD".toList := by
    intro h
    exact hplain.2.1 (tag_inj _ _ _ _ usd_hyphen_free hplain.1 h).1.symm
  constructor
  · intro s r hs
    simp only [JSObject.get_set, tag_ne_protoKey, ne_eq, not_false_eq_true, and_true]
    by_cases h : s = sym
    · subst h
      simp only [Function.update_same, Option.some.injEq] at hs
      subst hs
      constructor
      · rw [if_neg hne, if_pos rfl]
      · rw [if_pos rfl, div_some 1 _ (ne_of_gt hprice)]
    · rw [Function.update_noteq h] at hs
      obtain ⟨_, hsp⟩ := hρ s r hs
      have h1 : tag "USD".toList s ≠ tag sym "USD".toList := by
        intro e
        exact hplain.2.1 (tag_inj _ _ _ _ usd_hyphen_free hplain.1 e).1.symm
      have h2 : tag "USD".toList s ≠ tag "USD".toList sym := by
        intro e
        exact h (tag_inj _ _ _ _ usd_hyphen_free usd_hyphen_free e).2
      have h3 : tag s "USD".toList ≠ tag sym "USD".toList := by
        intro e
        exact h (tag_inj _ _ _ _ hsp.1 hplain.1 e).1
      have h4 : tag s "USD".toList ≠ tag "USD".toList sym := by
        intro e
        exact hsp.2.1 (tag_inj _ _ _ _ hsp.1 usd_hyphen_free e).1
      simp only [h1, h2, h3, h4, if_false]
      exact hT.1 s r hs
  · intro k hk1 hk2
    have hsymk := hk1 sym (by simp)
    simp only [JSObject.get_set, tag_ne_protoKey, ne_eq, not_false_eq_true, and_true,
      hsymk.1, hsymk.2, if_false]
    apply hT.2 k
    · intro s hs
      apply hk1 s
      by_cases h : s = sym
      · subst h
        simp
      · rwa [Function.update_noteq h]
    · intro a b ha hb hab
      apply hk2 a b _ _ hab
      · by_cases h : a = sym
        · subst h
          simp
        · rwa [Function.update_noteq h]
      · by_cases h : b = sym
        · subst h
          simp
        · rwa [Function.update_noteq h]

/-- On a table that holds the USD rates `ρ` of plain symbols, the symbols the
update handler extracts are those of `ρ`. -/
theorem mem_usdSymbols (ρ : JSString → Option ℚ) (hρ : PlainRates ρ) (T : JSObject)
    (hT : HoldsUsdRates ρ T) (s : JSString) : s ∈ usdSymbols T ↔ ρ s ≠ none := by
  simp only [usdSymbols, List.mem_map, List.mem_filter, JSObject.mem_keys]
  constructor
  · rintro ⟨key, ⟨hkey, hpre⟩, hs⟩
    by_contra hnone
    have hform : ¬ ((∀ x, ρ x ≠ none → key ≠ tag "USD".toList x ∧ key ≠ tag x "USD".toList) ∧
        (∀ a b, ρ a ≠ none → ρ b ≠ none → a ≠ b → key ≠ tag a b)) := by
      rintro ⟨h1, h2⟩
      rw [hT.2 key h1 h2] at hkey
      simp at hkey
    apply hform
    constructor
    · intro x hx
      cases hr : ρ x with
      | none => exact absurd hr hx
      | some r =>
        have hxp := (hρ x r hr).2
        constructor
        · intro e
          subst e
          rw [usd_tag_symbol x hxp.1] at hs
          rw [hs] at hx
          exact hx hnone
        · intro e
          subst e
          exact hxp.2.1 (startsWith_usd_tag x _ hxp.1 hpre)
    · intro a b ha _ _ e
      subst e
      cases hr : ρ a with
      | none => exact absurd hr ha
      | some r =>
        have hap := (hρ a r hr).2
        exact hap.2.1 (startsWith_usd_tag a b hap.1 hpre)
  · intro hs
    cases hr : ρ s with
    | none => exact absurd hr hs
    | some r =>
      refine ⟨tag "USD".toList s, ⟨?_, usd_tag_startsWith s⟩, usd_tag_symbol s (hρ s r hr).2.1⟩
      rw [(hT.1 s r hr).1]
      rfl

/-- The update handler turns a table that holds the USD rates `ρ` into the
rate table of `ρ` with the rate of `sym` set to `usdPrice`. -/
theorem update_isRateTable (ρ : JSString → Option ℚ) (hρ : PlainRates ρ)
    (cnv : CurrencyConverter) (hT : HoldsUsdRates ρ cnv.rates) (sym : JSString) (usdPrice : ℚ)
    (hsym : sym ≠ []) (hplain : PlainSymbol sym) (hprice : 0 < usdPrice) :
    IsRateTable (Function.update ρ sym (some usdPrice)) (cnv.update sym usdPrice).rates := by
  have hρ2 := plainRates_update ρ hρ sym usdPrice hplain hprice
  have hT2 := holdsUsdRates_set ρ hρ cnv.rates hT sym usdPrice hplain hprice
  have hmem := mem_usdSymbols _ hρ2 _ hT2
  rw [update_eq cnv sym usdPrice hsym hprice]
  generalize (cnv.rates.set (tag "USD".toList sym) (some usdPrice)).set (tag sym "USD".toList)
    (JSNumber.div (some 1) (some usdPrice)) = T2 at hT2 hmem ⊢
  generalize Function.update ρ sym (some usdPrice) = ρ2 at hρ2 hT2 hmem ⊢
  have hplain1 : ∀ p ∈ ((usdSymbols T2).flatMap fun a => (usdSymbols T2).map fun b => (a, b)),
      ρ2 p.1 ≠ none ∧ ρ2 p.2 ≠ none := by
    intro p hp
    rw [mem_pairs, hmem, hmem] at hp
    exact hp
  have hfree : ∀ p ∈ ((usdSymbols T2).flatMap fun a => (usdSymbols T2).map fun b => (a, b)),
      '-' ∉ p.1 := by
    intro p hp
    cases hr : ρ2 p.1 with
    | none => exact absurd hr (hplain1 p hp).1
    | some r => exact (hρ2 _ r hr).2.1
  obtain ⟨_, h2, h3⟩ := crossFold_spec (fun T s => T.num (tag "USD".toList s)) _ T2 hfree
    (by
      intro T p v s hp
      simp only [JSObject.num, JSObject.get_set, tag_ne_protoKey, ne_eq, not_false_eq_true,
        and_true]
      rw [if_neg (tag_usd_ne_cross ρ2 hρ2 s p.1 p.2 (hplain1 p hp).1)])
  have hcross : ∀ k, (∀ a b, ρ2 a ≠ none → ρ2 b ≠ none → a ≠ b → k ≠ tag a b) →
      ∀ p ∈ ((usdSymbols T2).flatMap fun a => (usdSymbols T2).map fun b => (a, b)),
        p.1 ≠ p.2 → k ≠ tag p.1 p.2 := by
    intro k hk p hp hne
    exact hk p.1 p.2 (hplain1 p hp).1 (hplain1 p hp).2 hne
  refine ⟨⟨?_, ?_⟩, ?_⟩
  · intro s r hs
    obtain ⟨_, hsp⟩ := hρ2 s r hs
    constructor
    · rw [h3 _ (hcross _ (fun a b ha _ _ => tag_usd_ne_cross ρ2 hρ2 s a b ha))]
      exact (hT2.1 s r hs).1
    · rw [h3 _ (hcross _ (fun a b ha hb _ => tag_to_usd_ne_cross ρ2 hρ2 s a b hsp.1 ha hb))]
      exact (hT2.1 s r hs).2
  · intro k hk1 hk2
    rw [h3 k (hcross k hk2)]
    exact hT2.2 k hk1 hk2
  · intro a b ra rb hab ha hb
    have hp : (a, b) ∈ ((usdSymbols T2).flatMap fun a => (usdSymbols T2).map fun b => (a, b)) := by
      rw [mem_pairs, hmem, hmem]
      exact ⟨by simp [ha], by simp [hb]⟩
    have hna : T2.num (tag "USD".toList a) = some ra := by
      rw [JSObject.num, (hT2.1 a ra ha).1]
      rfl
    have hnb : T2.num (tag "USD".toList b) = some rb := by
      rw [JSObject.num, (hT2.1 b rb hb).1]
      rfl
    rw [h2 (a, b) hp hab, hna, hnb, div_some rb ra (hρ2 a ra ha).1]

theorem usdRateOf_eq_some (P : List PriceEntry) (s : JSString) (r : ℚ)
    (h : usdRateOf P s = some r) : ∃ o ∈ P, o.asset_id_quote = s ∧ o.rate = r := by
  simp only [usdRateOf, Option.map_eq_some'] at h
  obtain ⟨o, ho, hr⟩ := h
  have hmem := List.mem_of_find?_eq_some ho
  have hs := List.find?_some ho
  exact ⟨o, by simpa using hmem, by simpa using hs, hr⟩

theorem plainRates_of_entries (P : List PriceEntry)
    (h : ∀ o ∈ P, o.rate ≠ 0 ∧ PlainSymbol o.asset_id_quote) : PlainRates (usdRateOf P) := by
  intro s r hs
  obtain ⟨o, ho, hos, hor⟩ := usdRateOf_eq_some P s r hs
  rw [← hos, ← hor]
  exact h o ho

theorem tag_usd_ne_cross_of_entries (P : List PriceEntry)
    (hfree : ∀ o ∈ P, '-' ∉ o.asset_id_quote)
    (husd : ∀ o ∈ P, o.asset_id_quote ≠ "USD".toList) (s a b : JSString)
    (ha : usdRateOf P a ≠ none) : tag "USD".toList s ≠ tag a b := by
  obtain ⟨o, ho, hoa⟩ := usdRateOf_ne_none P a ha
  intro h
  subst hoa
  exact husd o ho (tag_inj _ _ _ _ usd_hyphen_free (hfree o ho) h).1.symm

theorem tag_to_usd_ne_cross_of_entries (P : List PriceEntry)
    (hfree : ∀ o ∈ P, '-' ∉ o.asset_id_quote)
    (husd : ∀ o ∈ P, o.asset_id_quote ≠ "USD".toList) (s a b : JSString) (hs : '-' ∉ s)
    (ha : usdRateOf P a ≠ none) (hb : usdRateOf P b ≠ none) :
    tag s "USD".toList ≠ tag a b := by
  obtain ⟨o, ho, hoa⟩ := usdRateOf_ne_none P a ha
  obtain ⟨o2, ho2, hob⟩ := usdRateOf_ne_none P b hb
  intro h
  subst hoa hob
  exact husd o2 ho2 (tag_inj _ _ _ _ hs (hfree o ho) h).2.symm

/-- C12, as stated, fails on three price lists with non-zero rates: a symbol
given twice, the symbol `USD`, and symbols with hyphens. -/
theorem calculateRates_usd_rate_overwritten :
    ((⟨"A".toList, 2⟩ : PriceEntry) ∈ [(⟨"A".toList, 2⟩ : PriceEntry), ⟨"A".toList, 4⟩] ∧
      (calculateRates [⟨"A".toList, 2⟩, ⟨"A".toList, 4⟩]).get (tag "USD".toList "A".toList) =
        some (some 4)) ∧
    ((⟨"B".toList, 3⟩ : PriceEntry) ∈ [(⟨"USD".toList, 2⟩ : PriceEntry), ⟨"B".toList, 3⟩] ∧
      (calculateRates [⟨"USD".toList, 2⟩, ⟨"B".toList, 3⟩]).get (tag "USD".toList "B".toList) =
        some (some (3 / 2))) ∧
    ((⟨"x-y".toList, 5⟩ : PriceEntry) ∈
        [(⟨"USD-x".toList, 2⟩ : PriceEntry), ⟨"y".toList, 3⟩, ⟨"x-y".toList, 5⟩] ∧
      (calculateRates [⟨"USD-x".toList, 2⟩, ⟨"y".toList, 3⟩, ⟨"x-y".toList, 5⟩]).get
          (tag "USD".toList "x-y".toList) = some (some (3 / 2))) := by
  refine ⟨⟨by simp, ?_⟩, ⟨by simp, ?_⟩, ⟨by simp, ?_⟩⟩ <;> with_unfolding_all decide

/-- C12, amended: for a price list whose symbols are distinct, without hyphen
and other than `USD`, and for every entry `(sym, r)` of it with `r ≠ 0`, the
table of `calculateRates` maps `USD-sym` to `r` and `sym-USD` to `1 / r`. -/
theorem calculateRates_usd_rates (P : List PriceEntry)
    (hnodup : (P.map PriceEntry.asset_id_quote).Nodup)
    (hfree : ∀ o ∈ P, '-' ∉ o.asset_id_quote)
    (husd : ∀ o ∈ P, o.asset_id_quote ≠ "USD".toList)
    (o : PriceEntry) (ho : o ∈ P) (hrate : o.rate ≠ 0) :
    (calculateRates P).get (tag "USD".toList o.asset_id_quote) = some (some o.rate) ∧
    (calculateRates P).get (tag o.asset_id_quote "USD".toList) = some (some (1 / o.rate)) := by
  obtain ⟨_, hc2⟩ := calculateRates_cross P hfree
  obtain ⟨hf1, hf2, _⟩ := firstLoop_rates P hfree husd
  have hr := usdRateOf_of_nodup P hnodup o ho
  constructor
  · rw [hc2 _ (fun a b ha _ _ => tag_usd_ne_cross_of_entries P hfree husd _ a b ha), hf1, hr]
    rfl
  · rw [hc2 _ (fun a b ha hb _ =>
      tag_to_usd_ne_cross_of_entries P hfree husd _ a b (hfree o ho) ha hb),
      hf2 _ (hfree o ho), hr]
    simp [div_some 1 o.rate hrate]

/-- Witness of C12, amended: the entry of `B` in the sample list. -/
theorem calculateRates_usd_rates_witness :
    (calculateRates samplePrices).get (tag "USD".toList "B".toList) = some (some 4) ∧
    (calculateRates samplePrices).get (tag "B".toList "USD".toList) = some (some (1 / 4)) :=
  calculateRates_usd_rates samplePrices (by decide) (by decide) (by decide)
    ⟨"B".toList, 4⟩ (by decide) (by norm_num)

/-- C13, as stated, fails on three price lists with non-zero rates: with
hyphens in the symbols `1 a-b` is converted to `5/3 c`, not `2 / 1`; from the
symbol `__proto__` no rate is found; with `A` given twice `1 A` is converted
with the later rate. -/
theorem convert_cross_rate_fails :
    (CurrencyConverter.create hyphenPrices).convert (some 1) "a-b".toList "c".toList =
      .ok (some (5 / 3)) ∧
    (CurrencyConverter.create [⟨"__proto__".toList, 2⟩, ⟨"B".toList, 4⟩]).convert (some 1)
        "__proto__".toList "B".toList =
      .error "Rate for __proto__-B not found".toList ∧
    (CurrencyConverter.create [⟨"A".toList, 2⟩, ⟨"A".toList, 4⟩, ⟨"B".toList, 1⟩]).convert
        (some 1) "A".toList "B".toList = .ok (some (1 / 4)) := by
  refine ⟨?_, ?_, ?_⟩ <;> with_unfolding_all decide

/-- C13, amended: for a converter built from a price list whose symbols are
distinct, without hyphen and other than `__proto__`, with non-zero rates, and
for two entries of different symbols, `convert(amount, from, to)` is
`amount * rate(to) / rate(from)`. -/
theorem convert_cross_rate (P : List PriceEntry)
    (hnodup : (P.map PriceEntry.asset_id_quote).Nodup)
    (hfree : ∀ o ∈ P, '-' ∉ o.asset_id_quote)
    (hproto : ∀ o ∈ P, o.asset_id_quote ≠ protoKey)
    (hrates : ∀ o ∈ P, o.rate ≠ 0)
    (amount : ℚ) (oFrom oTo : PriceEntry) (hFrom : oFrom ∈ P) (hTo : oTo ∈ P)
    (hne : oFrom.asset_id_quote ≠ oTo.asset_id_quote) :
    (CurrencyConverter.create P).convert (some amount) oFrom.asset_id_quote
        oTo.asset_id_quote = .ok (some (amount * oTo.rate / oFrom.rate)) := by
  obtain ⟨hc1, _⟩ := calculateRates_cross P hfree
  have h := hc1 _ _ _ _ hne (hproto _ hFrom) (hproto _ hTo)
    (usdRateOf_of_nodup P hnodup _ hFrom) (usdRateOf_of_nodup P hnodup _ hTo)
  simp only [CurrencyConverter.convert, CurrencyConverter.create, h,
    div_some _ _ (hrates _ hFrom), JSNumber.mul]
  congr 2
  ring

/-- Witness of C13, amended: `10 A` in `B` on the sample list. -/
theorem convert_cross_rate_witness :
    (CurrencyConverter.create samplePrices).convert (some 10) "A".toList "B".toList =
      .ok (some (10 * 4 / 2)) :=
  convert_cross_rate samplePrices (by decide) (by decide) (by decide)
    (by intro o ho; simp only [samplePrices, List.mem_cons, List.mem_singleton,
          List.not_mem_nil, or_false] at ho; rcases ho with rfl | rfl <;> norm_num)
    10 ⟨"A".toList, 2⟩ ⟨"B".toList, 4⟩ (by decide) (by decide) (by decide)

/-- C14 on the data and the event of `Lab1.js`: after
`emit(UPDATE, {sym: "BTC", usdPrice: 50000})` on the converter of `jsonData`,
`convert(1, "BTC", "USD")` is `1 / 50000`, not `50000`; it is
`convert(1, "USD", "BTC")` that gives `50000`. -/
theorem update_stores_price_inverted :
    ((CurrencyConverter.create jsonData).update "BTC".toList 50000).convert (some 1)
        "BTC".toList "USD".toList = .ok (some (1 / 50000)) ∧
    ((CurrencyConverter.create jsonData).update "BTC".toList 50000).convert (some 1)
        "BTC".toList "USD".toList ≠ .ok (some 50000) ∧
    ((CurrencyConverter.create jsonData).update "BTC".toList 50000).convert (some 1)
        "USD".toList "BTC".toList = .ok (some 50000) := by
  refine ⟨?_, ?_, ?_⟩ <;> decide!

theorem isRateTable_unique (ρ : JSString → Option ℚ) (T1 T2 : JSObject)
    (h1 : IsRateTable ρ T1) (h2 : IsRateTable ρ T2) (k : JSString) : T1.get k = T2.get k := by
  by_cases hu : ∃ s r, ρ s = some r ∧ (k = tag "USD".toList s ∨ k = tag s "USD".toList)
  · obtain ⟨s, r, hs, hk | hk⟩ := hu
    · rw [hk, (h1.1.1 s r hs).1, (h2.1.1 s r hs).1]
    · rw [hk, (h1.1.1 s r hs).2, (h2.1.1 s r hs).2]
  · by_cases hc : ∃ a b ra rb, a ≠ b ∧ ρ a = some ra ∧ ρ b = some rb ∧ k = tag a b
    · obtain ⟨a, b, ra, rb, hab, ha, hb, hk⟩ := hc
      rw [hk, h1.2 a b ra rb hab ha hb, h2.2 a b ra rb hab ha hb]
    · have hk1 : ∀ s, ρ s ≠ none → k ≠ tag "USD".toList s ∧ k ≠ tag s "USD".toList := by
        intro s hs
        cases hr : ρ s with
        | none => exact absurd hr hs
        | some r =>
          exact ⟨fun e => hu ⟨s, r, hr, Or.inl e⟩, fun e => hu ⟨s, r, hr, Or.inr e⟩⟩
      have hk2 : ∀ a b, ρ a ≠ none → ρ b ≠ none → a ≠ b → k ≠ tag a b := by
        intro a b ha hb hab e
        cases hra : ρ a with
        | none => exact ha hra
        | some ra =>
          cases hrb : ρ b with
          | none => exact hb hrb
          | some rb => exact hc ⟨a, b, ra, rb, hab, hra, hrb, e⟩
      rw [h1.1.2 k hk1 hk2, h2.1.2 k hk1 hk2]

theorem find?_map_replace (sym : JSString) (usdPrice : ℚ) (s : JSString) :
    ∀ l : List PriceEntry,
      ((l.map fun o => if o.asset_id_quote = sym then { o with rate := usdPrice } else o).find?
        (fun o => o.asset_id_quote = s)).map PriceEntry.rate =
      ((l.find? fun o => o.asset_id_quote = s).map PriceEntry.rate).map
        fun r => if s = sym then usdPrice else r
  | [] => rfl
  | o :: l => by
    have ih := find?_map_replace sym usdPrice s l
    by_cases hos : o.asset_id_quote = sym
    · by_cases hs : o.asset_id_quote = s
      · have : s = sym := hs.symm.trans hos
        simp [List.find?_cons, hos, hs, this]
      · have hs' : ¬ sym = s := fun e => hs (hos.trans e)
        simp only [List.map_cons, hos, if_true, List.find?_cons, hs', decide_False, hs]
        exact ih
    · by_cases hs : o.asset_id_quote = s
      · have : ¬ s = sym := fun e => hos (hs.trans e)
        simp [List.find?_cons, hos, hs, this]
      · simp only [List.map_cons, hos, if_false, List.find?_cons, hs, decide_False]
        exact ih

theorem usdRateOf_withUsdPrice (P : List PriceEntry) (sym : JSString) (usdPrice : ℚ) :
    usdRateOf (withUsdPrice P sym usdPrice) = Function.update (usdRateOf P) sym (some usdPrice) := by
  funext s
  unfold withUsdPrice
  by_cases hmem : sym ∈ P.map PriceEntry.asset_id_quote
  · rw [if_pos hmem]
    simp only [usdRateOf, ← List.map_reverse]
    rw [find?_map_replace]
    by_cases hs : s = sym
    · subst hs
      obtain ⟨o, ho, hos⟩ := List.mem_map.mp hmem
      have := usdRateOf_of_mem P o ho
      rw [hos] at this
      simp only [usdRateOf] at this
      cases hf : (P.reverse.find? fun o => o.asset_id_quote = s).map PriceEntry.rate with
      | none => exact absurd hf this
      | some r => simp
    · rw [Function.update_noteq hs]
      unfold usdRateOf
      cases (P.reverse.find? fun o => o.asset_id_quote = s).map PriceEntry.rate <;> simp [hs]
  · rw [if_neg hmem, usdRateOf_append]
    by_cases hs : s = sym
    · subst hs
      simp
    · have : ¬ sym = s := fun e => hs e.symm
      simp [Function.update_noteq hs, this]

/-- C15, as stated, fails for symbols the claim does not exclude: an update
of the new symbol `A-B`, an update of the new symbol `USD`, an update on a
list with the symbol `__proto__`, and an update with the empty symbol each
leave a table that differs from the recomputed one at the key shown. -/
theorem update_differs_from_recomputation :
    (((CurrencyConverter.create samplePrices).update "A-B".toList 8).rates.get "A-A-B".toList =
        none ∧
      (calculateRates (withUsdPrice samplePrices "A-B".toList 8)).get "A-A-B".toList =
        some (some 4)) ∧
    (((CurrencyConverter.create samplePrices).update "USD".toList 8).rates.get "USD-A".toList =
        some (some 16) ∧
      (calculateRates (withUsdPrice samplePrices "USD".toList 8)).get "USD-A".toList =
        some (some (1 / 4))) ∧
    (((CurrencyConverter.create [⟨"__proto__".toList, 2⟩, ⟨"B".toList, 4⟩]).update
        "B".toList 8).rates.get "__proto__-B".toList = some (some 4) ∧
      (calculateRates (withUsdPrice [⟨"__proto__".toList, 2⟩, ⟨"B".toList, 4⟩]
        "B".toList 8)).get "__proto__-B".toList = none) ∧
    (((CurrencyConverter.create samplePrices).update [] 8).rates.get "USD-".toList = none ∧
      (calculateRates (withUsdPrice samplePrices [] 8)).get "USD-".toList = some (some 8)) := by
  refine ⟨⟨?_, ?_⟩, ⟨?_, ?_⟩, ⟨?_, ?_⟩, ⟨?_, ?_⟩⟩ <;> decide!

/-- C15, amended: for a converter built from a price list with distinct
symbols, each without hyphen and other than `USD` and `__proto__`, and with
non-zero rates, and for an update of a non-empty symbol `sym` of that kind to
a `usdPrice > 0`, the table after the handler and the table recomputed by
`calculateRates` from the list with the rate of `sym` replaced (or the entry
appended) hold the same value, or none, under every key. -/
theorem update_agrees_with_recomputation (P : List PriceEntry)
    (_hnodup : (P.map PriceEntry.asset_id_quote).Nodup)
    (hP : ∀ o ∈ P, o.rate ≠ 0 ∧ PlainSymbol o.asset_id_quote)
    (sym : JSString) (usdPrice : ℚ) (hsym : sym ≠ []) (hplain : PlainSymbol sym)
    (hprice : 0 < usdPrice) (k : JSString) :
    ((CurrencyConverter.create P).update sym usdPrice).rates.get k =
      (calculateRates (withUsdPrice P sym usdPrice)).get k := by
  have hρ := plainRates_of_entries P hP
  have h1 := update_isRateTable (usdRateOf P) hρ (CurrencyConverter.create P)
    (calculateRates_isRateTable P hρ).1 sym usdPrice hsym hplain hprice
  have hρ2 : PlainRates (usdRateOf (withUsdPrice P sym usdPrice)) := by
    rw [usdRateOf_withUsdPrice]
    exact plainRates_update _ hρ sym usdPrice hplain hprice
  have h2 := calculateRates_isRateTable (withUsdPrice P sym usdPrice) hρ2
  rw [usdRateOf_withUsdPrice] at h2
  exact isRateTable_unique _ _ _ h1 h2 k

/-- Witness of C15, amended: the price of `B` updated to 8 on the sample list,
at the key `A-B`. -/
theorem update_agrees_with_recomputation_witness :
    ((CurrencyConverter.create samplePrices).update "B".toList 8).rates.get "A-B".toList =
      (calculateRates (withUsdPrice samplePrices "B".toList 8)).get "A-B".toList :=
  update_agrees_with_recomputation samplePrices (by decide)
    (by intro o ho; simp only [samplePrices, List.mem_cons, List.mem_singleton,
          List.not_mem_nil, or_false] at ho
        rcases ho with rfl | rfl <;> exact ⟨by norm_num, by decide⟩)
    "B".toList 8 (by decide) (by decide) (by norm_num) "A-B".toList

/-- C16, as stated, fails in its last part: on a table built by
`calculateRates` from a list with the symbol `USD`, or from a list with
hyphens in its symbols, a symbol is converted to itself without an error. -/
theorem convert_to_itself_returns :
    (CurrencyConverter.create [⟨"USD".toList, 2⟩]).convert (some 5) "USD".toList "USD".toList =
      .ok (some (5 / 2)) ∧
    (CurrencyConverter.create [⟨"a-a".toList, 1⟩, ⟨"a-a-a".toList, 2⟩, ⟨"a".toList, 3⟩]).convert
      (some 5) "a-a".toList "a-a".toList = .ok (some (10 / 3)) := by
  refine ⟨?_, ?_⟩ <;> decide!

/-- C16, amended: `convert` throws `Rate for <from>-<to> not found` exactly
when the table has no entry under `from-to`, and otherwise returns that entry
times the amount; on a table built by `calculateRates` from a list whose
symbols are without hyphen and other than `USD`, converting a symbol without
hyphen to itself throws. -/
theorem convert_throws_iff (cnv : CurrencyConverter) (amount : JSNumber)
    (fromUnits toUnits : JSString) :
    (cnv.convert amount fromUnits toUnits =
        .error ("Rate for ".toList ++ tag fromUnits toUnits ++ " not found".toList) ↔
      cnv.rates.get (tag fromUnits toUnits) = none) ∧
    ((∃ msg, cnv.convert amount fromUnits toUnits = .error msg) ↔
      cnv.rates.get (tag fromUnits toUnits) = none) ∧
    (∀ rate, cnv.rates.get (tag fromUnits toUnits) = some rate →
      cnv.convert amount fromUnits toUnits = .ok (JSNumber.mul rate amount)) ∧
    (∀ (P : List PriceEntry), cnv = CurrencyConverter.create P →
      (∀ o ∈ P, '-' ∉ o.asset_id_quote ∧ o.asset_id_quote ≠ "USD".toList) →
      '-' ∉ fromUnits → toUnits = fromUnits →
      cnv.convert amount fromUnits toUnits =
        .error ("Rate for ".toList ++ tag fromUnits fromUnits ++ " not found".toList)) := by
  have hnone : cnv.rates.get (tag fromUnits toUnits) = none →
      cnv.convert amount fromUnits toUnits =
        .error ("Rate for ".toList ++ tag fromUnits toUnits ++ " not found".toList) := by
    intro h
    simp only [CurrencyConverter.convert, h]
  have hsome : ∀ rate, cnv.rates.get (tag fromUnits toUnits) = some rate →
      cnv.convert amount fromUnits toUnits = .ok (JSNumber.mul rate amount) := by
    intro rate h
    simp only [CurrencyConverter.convert, h]
  refine ⟨⟨fun h => ?_, hnone⟩, ⟨fun h => ?_, fun h => ⟨_, hnone h⟩⟩, hsome, ?_⟩
  · cases hg : cnv.rates.get (tag fromUnits toUnits) with
    | none => rfl
    | some rate =>
      rw [hsome rate hg] at h
      cases h
  · cases hg : cnv.rates.get (tag fromUnits toUnits) with
    | none => rfl
    | some rate =>
      obtain ⟨msg, h⟩ := h
      rw [hsome rate hg] at h
      cases h
  · intro P hcnv hP hfrom hto
    subst hto hcnv
    apply hnone
    have hfree : ∀ o ∈ P, '-' ∉ o.asset_id_quote := fun o ho => (hP o ho).1
    have husd : ∀ o ∈ P, o.asset_id_quote ≠ "USD".toList := fun o ho => (hP o ho).2
    obtain ⟨_, hc2⟩ := calculateRates_cross P hfree
    obtain ⟨_, _, hf3⟩ := firstLoop_rates P hfree husd
    show (calculateRates P).get (tag toUnits toUnits) = none
    rw [hc2]
    · by_contra hne
      obtain ⟨o, ho, h | h⟩ := hf3 _ hne
      · have := tag_inj _ _ _ _ hfrom usd_hyphen_free h
        exact husd o ho (this.2.symm.trans this.1)
      · have := tag_inj _ _ _ _ hfrom (hfree o ho) h
        exact husd o ho (this.1.symm.trans this.2)
    · intro a b ha _ hab h
      obtain ⟨o, ho, hoa⟩ := usdRateOf_ne_none P a ha
      subst hoa
      have := tag_inj _ _ _ _ hfrom (hfree o ho) h
      exact hab (this.1.symm.trans this.2)

/-- Witness of C16, amended: `A` to `A` on the sample list. -/
theorem convert_throws_iff_witness :
    (CurrencyConverter.create samplePrices).convert (some 3) "A".toList "A".toList =
      .error ("Rate for ".toList ++ tag "A".toList "A".toList ++ " not found".toList) :=
  (convert_throws_iff (CurrencyConverter.create samplePrices) (some 3) "A".toList
    "A".toList).2.2.2 samplePrices rfl (by decide) (by decide) rfl

theorem updates_isRateTable :
    ∀ (events : List (JSString × ℚ)) (ρ : JSString → Option ℚ) (cnv : CurrencyConverter),
      PlainRates ρ → IsRateTable ρ cnv.rates →
      (∀ ev ∈ events, ev.1 ≠ [] ∧ PlainSymbol ev.1 ∧ 0 < ev.2) →
      PlainRates (ratesAfter ρ events) ∧
        IsRateTable (ratesAfter ρ events) (cnv.updates events).rates
  | [], _, _, hρ, hT, _ => ⟨hρ, hT⟩
  | ev :: events, ρ, cnv, hρ, hT, hev => by
    obtain ⟨hsym, hplain, hprice⟩ := hev ev (List.mem_cons_self _ _)
    exact updates_isRateTable events _ (cnv.update ev.1 ev.2)
      (plainRates_update ρ hρ ev.1 ev.2 hplain hprice)
      (update_isRateTable ρ hρ cnv hT.1 ev.1 ev.2 hsym hplain hprice)
      (fun e he => hev e (List.mem_cons_of_mem _ he))

theorem ratesAfter_ne_none (a : JSString) :
    ∀ (events : List (JSString × ℚ)) (ρ : JSString → Option ℚ),
      (ρ a ≠ none ∨ a ∈ events.map Prod.fst) → ratesAfter ρ events a ≠ none
  | [], _, h => by
    rcases h with h | h
    · exact h
    · simp at h
  | ev :: events, ρ, h => by
    apply ratesAfter_ne_none a events
    by_cases hev : a = ev.1
    · left
      subst hev
      show Function.update ρ ev.1 (some ev.2) ev.1 ≠ none
      simp
    · rcases h with h | h
      · left
        show Function.update ρ ev.1 (some ev.2) a ≠ none
        rwa [Function.update_noteq hev]
      · right
        simp only [List.map_cons, List.mem_cons] at h
        rcases h with h | h
        · exact absurd h hev
        · exact h

theorem isRateTable_round_trip (ρ : JSString → Option ℚ) (hρ : PlainRates ρ)
    (cnv : CurrencyConverter) (hT : IsRateTable ρ cnv.rates) (x : ℚ) (a b : JSString)
    (ha : ρ a ≠ none) (hb : ρ b ≠ none) (hab : a ≠ b) :
    (cnv.convert (some x) a b).bind (fun y => cnv.convert y b a) = .ok (some x) ∧
    (cnv.convert (some x) "USD".toList a).bind (fun y => cnv.convert y a "USD".toList) =
      .ok (some x) := by
  cases hra : ρ a with
  | none => exact absurd hra ha
  | some ra =>
    cases hrb : ρ b with
    | none => exact absurd hrb hb
    | some rb =>
      have hra0 := (hρ a ra hra).1
      have hrb0 := (hρ b rb hrb).1
      constructor
      · simp only [CurrencyConverter.convert, hT.2 a b ra rb hab hra hrb,
          hT.2 b a rb ra (Ne.symm hab) hrb hra, JSNumber.mul, Except.bind]
        congr 2
        field_simp
        ring
      · simp only [CurrencyConverter.convert, (hT.1.1 a ra hra).1, (hT.1.1 a ra hra).2,
          JSNumber.mul, Except.bind]
        congr 2
        field_simp

/-- C17, as stated, fails: with the quote symbol `USD` the round trip
`USD → USD → USD` divides the amount by 4; with hyphens in the symbols the
round trip `a-b → c → a-b` of 1 gives `5/6`; and after the valid update of
the symbol `A-B` no rate is found from `A-B` to `A`. -/
theorem convert_round_trip_fails :
    ((CurrencyConverter.create [⟨"USD".toList, 2⟩]).convert (some 8) "USD".toList
        "USD".toList).bind
      (fun y => (CurrencyConverter.create [⟨"USD".toList, 2⟩]).convert y "USD".toList
        "USD".toList) = .ok (some 2) ∧
    ((CurrencyConverter.create hyphenPrices).convert (some 1) "a-b".toList "c".toList).bind
      (fun y => (CurrencyConverter.create hyphenPrices).convert y "c".toList "a-b".toList) =
      .ok (some (5 / 6)) ∧
    ((CurrencyConverter.create samplePrices).updates [("A-B".toList, 8)]).convert (some 1)
      "A-B".toList "A".toList = .error "Rate for A-B-A not found".toList := by
  refine ⟨?_, ?_, ?_⟩ <;> decide!

/-- C17, amended: for a converter built from a price list whose symbols are
without hyphen and other than `USD` and `__proto__` and whose rates are not
zero, after any run of `UPDATE_USD_PRICE` events with a non-empty symbol of
that kind and a price above zero (the empty run included), for every amount
`x` and every two different symbols `a`, `b` of the list or of the events,
`convert(convert(x, a, b), b, a) = x` and
`convert(convert(x, 'USD', a), a, 'USD') = x`. -/
theorem convert_round_trip (P : List PriceEntry)
    (hP : ∀ o ∈ P, o.rate ≠ 0 ∧ PlainSymbol o.asset_id_quote)
    (events : List (JSString × ℚ))
    (hevents : ∀ ev ∈ events, ev.1 ≠ [] ∧ PlainSymbol ev.1 ∧ 0 < ev.2)
    (x : ℚ) (a b : JSString)
    (ha : a ∈ P.map PriceEntry.asset_id_quote ++ events.map Prod.fst)
    (hb : b ∈ P.map PriceEntry.asset_id_quote ++ events.map Prod.fst) (hab : a ≠ b) :
    (((CurrencyConverter.create P).updates events).convert (some x) a b).bind
      (fun y => ((CurrencyConverter.create P).updates events).convert y b a) = .ok (some x) ∧
    (((CurrencyConverter.create P).updates events).convert (some x) "USD".toList a).bind
      (fun y => ((CurrencyConverter.create P).updates events).convert y a "USD".toList) =
      .ok (some x) := by
  have hρ := plainRates_of_entries P hP
  obtain ⟨hρ2, hT⟩ := updates_isRateTable events (usdRateOf P) (CurrencyConverter.create P) hρ
    (calculateRates_isRateTable P hρ) hevents
  have hmem : ∀ s, s ∈ P.map PriceEntry.asset_id_quote ++ events.map Prod.fst →
      ratesAfter (usdRateOf P) events s ≠ none := by
    intro s hs
    apply ratesAfter_ne_none
    rcases List.mem_append.mp hs with h | h
    · obtain ⟨o, ho, hos⟩ := List.mem_map.mp h
      left
      rw [← hos]
      exact usdRateOf_of_mem P o ho
    · exact Or.inr h
  exact isRateTable_round_trip _ hρ2 _ hT x a b (hmem a ha) (hmem b hb) hab

/-- Witness of C17, amended: the sample list, the price of `B` updated to 8
and a new symbol `C` at 5, the round trips of 7 between `A` and `C`. -/
theorem convert_round_trip_witness :
    (((CurrencyConverter.create samplePrices).updates
        [("B".toList, 8), ("C".toList, 5)]).convert (some 7) "A".toList "C".toList).bind
      (fun y => ((CurrencyConverter.create samplePrices).updates
        [("B".toList, 8), ("C".toList, 5)]).convert y "C".toList "A".toList) = .ok (some 7) :=
  (convert_round_trip samplePrices
    (by intro o ho; simp only [samplePrices, List.mem_cons, List.mem_singleton,
          List.not_mem_nil, or_false] at ho
        rcases ho with rfl | rfl <;> exact ⟨by norm_num, by decide⟩)
    [("B".toList, 8), ("C".toList, 5)]
    (by intro ev hev; simp only [List.mem_cons, List.mem_singleton, List.not_mem_nil,
          or_false] at hev
        rcases hev with rfl | rfl <;> exact ⟨by decide, by decide, by norm_num⟩)
    7 "A".toList "C".toList (by decide) (by decide) (by decide)).1

end Lab1
